import Mathlib

/-!
Verification of the hybrid JSON translation pipeline (`hybrid_translator.py`).

Texts are modelled as `List Char` (`Str`).  Python's `str.lower`/`str.upper`
are modelled on ASCII letters (`Char.toLower`/`Char.toUpper`), the regex
classes `\s` and `\w` are modelled by their ASCII subsets; every concrete
input used below is ASCII, where the two semantics agree.  Floating point
arithmetic in the quality scorer only ever handles small integers (100, -20,
-15, -10, and `len * 0.2` comparisons, which for binary64 agree exactly with
the rational comparison `5 * len_t < len_o`), so scores are modelled as `Int`.
-/

abbrev Str := List Char

/-- ASCII fragment of Python's regex class `\s` / `str.strip` whitespace. -/
def isWsC (c : Char) : Bool :=
  c = ' ' || c = '\t' || c = '\n' || c = '\x0d' || c = '\x0c' || c = '\x0b'

/-- Sentence-ending characters of the capitalization regex `[.!?]`. -/
def isSentC (c : Char) : Bool :=
  c = '.' || c = '!' || c = '?'

/-- ASCII fragment of Python's regex class `\w`. -/
def isWordC (c : Char) : Bool :=
  c.isAlphanum || c = '_'

/-- ASCII `[a-z]`, the capture group of the capitalization regex. -/
def isLowerAZ (c : Char) : Bool :=
  'a' ≤ c && c ≤ 'z'

/-- `str.lower()` (ASCII). -/
def lowerStr (s : Str) : Str := s.map Char.toLower

/-- `str.strip()` (ASCII whitespace). -/
def trimWs (s : Str) : Str :=
  ((s.dropWhile isWsC).reverse.dropWhile isWsC).reverse

/-- Python's substring test `pat in s` (`True` for the empty pattern). -/
def isSubstr (pat : Str) : Str → Bool
  | [] => pat.isPrefixOf ([] : Str)
  | c :: rest => pat.isPrefixOf (c :: rest) || isSubstr pat rest

/-- Number of start positions of `s` at which `pat` occurs (occurrences may
overlap); used to state claims about "occurrences" of a term. -/
def countOccur (pat : Str) : Str → Nat
  | [] => if pat.isPrefixOf ([] : Str) then 1 else 0
  | c :: rest =>
      (if pat.isPrefixOf (c :: rest) then 1 else 0) + countOccur pat rest

theorem lowerStr_append (a b : Str) : lowerStr (a ++ b) = lowerStr a ++ lowerStr b := by
  simp [lowerStr]

theorem isSubstr_correct (pat s : Str) :
    isSubstr pat s = true ↔ pat <:+: s := by
  induction s with
  | nil =>
      simp [isSubstr, List.isPrefixOf_iff_prefix, List.prefix_nil, List.infix_nil]
  | cons c rest ih =>
      simp only [isSubstr, Bool.or_eq_true, ih, List.isPrefixOf_iff_prefix]
      constructor
      · rintro (h | h)
        · exact h.isInfix
        · exact h.trans (List.suffix_cons c rest).isInfix
      · intro h
        rcases List.infix_cons_iff.mp h with h | h
        · exact Or.inl h
        · exact Or.inr h

/-- Appending on the right preserves substring hits. -/
theorem isSubstr_append_right (pat s t : Str) (h : isSubstr pat s = true) :
    isSubstr pat (s ++ t) = true := by
  rw [isSubstr_correct] at h ⊢
  exact h.trans (List.prefix_append s t).isInfix

/-! ### QualityChecker (`hybrid_translator.py`, lines 22-88)

The terminology file is external to the repository; its parsed contents are
modelled as parameters: `CMap` is `quality_patterns["common_mistakes"]`
(a per-target-language association list `correct_term ↦ wrong_variants`,
in insertion order, with `.get(lang, {})` modelled by totality). -/

abbrev CMap := String → List (Str × List Str)

/-- One entry of the `issues` list of a quality result (a Python dict whose
optional keys are modelled with `Option`). -/
structure Issue where
  type : String
  wrong_term : Option Str := none
  correct_term : Option Str := none
  confidence : Rat
deriving DecidableEq, Repr

def emptyIssue : Issue := { type := ("empty_translation"), confidence := 1 }

def tooShortIssue : Issue := { type := ("too_short"), confidence := 7/10 }

def htmlIssue : Issue := { type := ("html_mismatch"), confidence := 4/5 }

def mkMistakeIssue (wrong correct : Str) : Issue :=
  { type := ("common_mistake"), wrong_term := some wrong,
    correct_term := some correct, confidence := 9/10 }

/-- `QualityChecker.check_common_mistakes`: one issue per
`(correct_term, wrong_variant)` dictionary pair whose variant occurs
(case-insensitively, as a substring) in `text`, in dictionary order. -/
def check_common_mistakes (cm : CMap) (text : Str) (target_lang : String) :
    List Issue :=
  let common_mistakes := cm target_lang
  let text_lower := lowerStr text
  common_mistakes.flatMap (fun p =>
    (p.2.filter (fun w => isSubstr (lowerStr w) text_lower)).map
      (fun w => mkMistakeIssue w p.1))

/-- Scanner for `re.findall(r'<[^>]+>', s)`.  `cap = none` while outside a
candidate match; `cap = some body` after an opening `<`, accumulating the
`[^>]*` body (which may itself contain `<`, as in the regex).  A closing `>`
after a nonempty body emits the group; a `<>` with empty body matches
nothing (the `+` needs at least one body character), and the scan simply
continues; an unterminated `<` at the end of input matches nothing.  This is
exactly the leftmost non-overlapping match discipline of `re.findall`. -/
def tagsGo (cap : Option Str) : Str → List Str
  | [] => []
  | c :: rest =>
      match cap with
      | none => if c = '<' then tagsGo (some []) rest else tagsGo none rest
      | some b =>
          if c = '>' then
            if b.isEmpty then tagsGo none rest
            else ('<' :: (b ++ ['>'])) :: tagsGo none rest
          else tagsGo (some (b ++ [c])) rest

/-- `re.findall(r'<[^>]+>', s)`. -/
def findall_tags (s : Str) : List Str := tagsGo none s

/-- Equality of `set(a)` and `set(b)`. -/
def eqAsSets (a b : List Str) : Bool :=
  a.all (fun x => b.contains x) && b.all (fun x => a.contains x)

structure QualityResult where
  score : Int
  issues : List Issue
  needs_review : Bool
deriving DecidableEq, Repr

/-- `QualityChecker.calculate_quality_score`.  The Python float comparison
`len(translated) < len(original) * 0.2` is exactly `5 * len_t < len_o` (shown
in the header comment); all other float arithmetic is on small integers. -/
def calculate_quality_score (cm : CMap) (original translated : Str)
    (target_lang : String) : QualityResult :=
  let mistakes := check_common_mistakes cm translated target_lang
  let si : Int × List Issue :=
    mistakes.foldl (fun acc m => (acc.1 - 20, acc.2 ++ [m])) (100, [])
  let si :=
    if trimWs translated = [] then ((0 : Int), si.2 ++ [emptyIssue]) else si
  let si :=
    if 5 * translated.length < original.length then
      (si.1 - 15, si.2 ++ [tooShortIssue])
    else si
  let si :=
    if eqAsSets (findall_tags original) (findall_tags translated) then si
    else (si.1 - 10, si.2 ++ [htmlIssue])
  { score := max 0 si.1, issues := si.2, needs_review := decide (si.1 < 70) }

/-- The subtract-20-per-mistake loop in closed form. -/
theorem mistakes_foldl_closed (ms : List Issue) (s0 : Int) (is0 : List Issue) :
    ms.foldl (fun (acc : Int × List Issue) m => (acc.1 - 20, acc.2 ++ [m]))
      (s0, is0) = (s0 - 20 * ms.length, is0 ++ ms) := by
  induction ms generalizing s0 is0 with
  | nil => simp
  | cons m rest ih =>
      simp only [List.foldl_cons, ih, List.length_cons, Prod.mk.injEq]
      refine ⟨by push_cast; ring, by simp⟩

/-! ### TerminologyTranslator (`hybrid_translator.py`, lines 90-141)

`admin_ui_terms` of the external terminology file is modelled as two partial
maps (`dict.get` is `Option`-valued). -/

structure Terms where
  tr_en : Str → Option Str
  en_de : Str → Option Str

/-- Python truthiness of an optional string (`None` and `""` are falsy), as
used by `if term_translation:` / `if term_trans:`. -/
def truthyO (o : Option Str) : Option Str :=
  match o with
  | none => none
  | some v => if v = [] then none else some v

/-- `TerminologyTranslator.get_term_translation`: exact lowercase lookup,
only for the two supported directed language pairs. -/
def get_term_translation (terms : Terms) (text : Str)
    (source_lang target_lang : String) : Option Str :=
  if source_lang = ("turkish") ∧ target_lang = ("english") then
    terms.tr_en (lowerStr text)
  else if source_lang = ("english") ∧ target_lang = ("german") then
    terms.en_de (lowerStr text)
  else none

/-- Scanner for Python `text.split()` (split on whitespace runs, no empty
tokens); `cur` is the token being accumulated. -/
def splitWsGo (cur : Str) : Str → List Str
  | [] => if cur.isEmpty then [] else [cur]
  | c :: rest =>
      if isWsC c then
        (if cur.isEmpty then splitWsGo [] rest else cur :: splitWsGo [] rest)
      else splitWsGo (cur ++ [c]) rest

/-- Python `text.split()`. -/
def splitWs (s : Str) : List Str := splitWsGo [] s

/-- `re.sub(r'[^\w\s]', '', word).lower()`. -/
def cleanLower (w : Str) : Str :=
  lowerStr (w.filter (fun c => isWordC c || isWsC c))

/-- `' '.join(words)`. -/
def joinSpace (ws : List Str) : Str := List.intercalate [' '] ws

/-- `TerminologyTranslator.translate_with_terminology`: whole-string exact
match first; otherwise, when the text splits into more than one token,
word-by-word substitution of cleaned tokens (the per-word loop is the fold
accumulating the substituted words and the `has_terminology` flag). -/
def translate_with_terminology (terms : Terms) (text : Str)
    (source_lang target_lang : String) : Str × Bool :=
  match truthyO (get_term_translation terms text source_lang target_lang) with
  | some term_translation => (term_translation, true)
  | none =>
      let words := splitWs text
      if 1 < words.length then
        let acc := words.foldl
          (fun (acc : List Str × Bool) word =>
            match truthyO (get_term_translation terms (cleanLower word)
                source_lang target_lang) with
            | some term_trans => (acc.1 ++ [term_trans], true)
            | none => (acc.1 ++ [word], acc.2))
          ([], false)
        if acc.2 then (joinSpace acc.1, true) else (text, false)
      else (text, false)

/-! ### PostProcessor (`hybrid_translator.py`, lines 143-228) -/

/-- Scanner for `re.sub(re.escape(w), c, t, flags=re.IGNORECASE)`:
non-overlapping left-to-right case-insensitive replacement of the literal
`w` by `c`, continuing on the original text after each match; `skip` is the
number of remaining characters of the current match still to be consumed
(the replacement has already been emitted). -/
def subCIGo (w c : Str) (skip : Nat) : Str → Str
  | [] => []
  | x :: rest =>
      match skip with
      | k + 1 => subCIGo w c k rest
      | 0 =>
          if lowerStr ((x :: rest).take w.length) = lowerStr w then
            c ++ subCIGo w c (w.length - 1) rest
          else x :: subCIGo w c 0 rest

/-- `re.sub(re.escape(w), c, t, flags=re.IGNORECASE)`.  An empty pattern
matches at every position (Python inserts `c` around every character). -/
def subCI (w c : Str) (t : Str) : Str :=
  if w = [] then c ++ t.flatMap (fun ch => ch :: c)
  else subCIGo w c 0 t

/-- `PostProcessor.fix_common_mistakes`: substring-replace (no word
boundaries) each detected wrong term by its correct term, in issue order. -/
def fix_common_mistakes (cm : CMap) (text : Str) (target_lang : String) : Str :=
  let mistakes := check_common_mistakes cm text target_lang
  mistakes.foldl
    (fun t m => subCI (m.wrong_term.getD []) (m.correct_term.getD []) t) text

/-- The hardcoded `common_fixes` table of `apply_terminology_fixes`,
in source (insertion) order. -/
def commonFixes : List (Str × Str) :=
  [(("introduction").data, ("login").data),
   (("exit").data, ("logout").data),
   (("mercenary kurds").data, ("exchange rates").data),
   (("bayiers").data, ("dealers").data),
   (("varient").data, ("variant").data),
   (("copyed").data, ("copied").data),
   (("absorptions").data, ("subscriptions").data),
   (("resorptionen").data, ("abonnements").data)]

/-- Whether `y :: _ = t.drop w.length` starts with a word character
(the character right after a candidate match; end of string counts as
non-word). -/
def nextIsWord (w t : Str) : Bool :=
  match t.drop w.length with
  | [] => false
  | y :: _ => isWordC y

/-- A match of `re.compile(r'\b' + re.escape(w) + r'\b', re.IGNORECASE)` at
the head of `t`, where `prevW` tells whether the character before `t` in the
whole string is a word character (false at the start of the string).
`\b` holds where word-ness flips; the table never contains an empty key, and
an empty `w` is conservatively treated as matching nowhere. -/
def wbMatchAt (w : Str) (prevW : Bool) (t : Str) : Bool :=
  decide (w ≠ []) &&
  decide (lowerStr (t.take w.length) = lowerStr w) &&
  (prevW != isWordC (w.headD ' ')) &&
  (isWordC (w.getLastD ' ') != nextIsWord w t)

/-- Scanner of `re.sub` for the word-boundary pattern: non-overlapping
left-to-right replacement, continuing after each match on the original text
(so the boundary state after a match comes from the matched text).  `skip`
counts the remaining characters of the current match still to be consumed;
`prevW` is the word-ness of the previous character of the original text
relevant for the next `\b` test (already set to the match's last character
while skipping). -/
def subWBGo (w c : Str) (skip : Nat) (prevW : Bool) : Str → Str
  | [] => []
  | x :: rest =>
      match skip with
      | k + 1 => subWBGo w c k prevW rest
      | 0 =>
          if wbMatchAt w prevW (x :: rest) then
            c ++ subWBGo w c (w.length - 1) (isWordC (w.getLastD ' ')) rest
          else x :: subWBGo w c 0 (isWordC x) rest

/-- `re.sub(r'\b' + re.escape(w) + r'\b', c, t, flags=re.IGNORECASE)`. -/
def subWB (w c : Str) (t : Str) : Str := subWBGo w c 0 false t

/-- `PostProcessor.apply_terminology_fixes`.  The function also builds a
`reverse_terminology` map from the terminology dictionary for the two
supported language pairs, but never reads it; the hardcoded `common_fixes`
table is applied for every language pair, each fix gated by a substring test
against the lowercased *original* text (`text_lower` is not recomputed as
replacements accumulate). -/
def apply_terminology_fixes (terms : Terms) (text : Str)
    (source_lang target_lang : String) : Str :=
  let text_lower := lowerStr text
  commonFixes.foldl
    (fun t wc => if isSubstr wc.1 text_lower then subWB wc.1 wc.2 t else t)
    text

/-- State of the scanner emulating
`re.sub(r'(^|[.!?]\s+)([a-z])', lambda m: m.group(1) + m.group(2).upper(), text)`:
`start` = at position 0 (where `^` matches with empty group 1), `punct` =
previous character was `.`, `!` or `?`, `ws` = previous characters were a
sentence end followed by at least one whitespace, `norm` = anything else.
A letter is uppercased exactly when group 1 can end right before it, i.e. in
states `start` and `ws`; since the replacement only changes an `[a-z]`
letter into its uppercase (same character class for all later match
attempts), and a consumed match never overlaps a later one, the scan is
equivalent to the regex substitution. -/
inductive CapState where
  | start
  | norm
  | punct
  | ws
deriving DecidableEq, Repr

def capStep (st : CapState) (c : Char) : CapState :=
  if isSentC c then CapState.punct
  else if isWsC c then
    (if st = CapState.punct ∨ st = CapState.ws then CapState.ws
     else CapState.norm)
  else CapState.norm

def capEmit (st : CapState) (c : Char) : Char :=
  if (st = CapState.start ∨ st = CapState.ws) ∧ isLowerAZ c then c.toUpper
  else c

def capGo (st : CapState) : Str → Str
  | [] => []
  | c :: rest => capEmit st c :: capGo (capStep st c) rest

/-- `PostProcessor.normalize_capitalization`. -/
def normalize_capitalization (s : Str) : Str := capGo CapState.start s

structure TranslationRecord where
  original : Str
  raw_translation : Str
  processed_translation : Str
  quality : QualityResult
  improved : Bool
  method : Option String := none

/-- `PostProcessor.process_translation`: the three ordered correction
stages, then the quality score of the fully processed text. -/
def process_translation (cm : CMap) (terms : Terms)
    (original translated : Str) (source_lang target_lang : String) :
    TranslationRecord :=
  let processed := fix_common_mistakes cm translated target_lang
  let processed := apply_terminology_fixes terms processed source_lang target_lang
  let processed := normalize_capitalization processed
  let quality := calculate_quality_score cm original processed target_lang
  { original := original, raw_translation := translated,
    processed_translation := processed, quality := quality,
    improved := decide (processed ≠ translated) }

/-! ### HybridTranslator (`hybrid_translator.py`, lines 230-327)

The neural model call (tokenize / generate / decode) is the external
collaborator; it is abstracted as a function `tf : Str → Str` (the decoded
model output before the `.strip()` the code applies to it). -/

/-- Scanner for `re.split(r'(<[^>]*>)', text)`: `t` accumulates the current
non-tag span, `cap = some body` accumulates the `[^>]*` body of a candidate
tag after a `<`.  On a closing `>` the non-tag span and the captured tag are
emitted (the body may be empty, `[^>]*` allows it); an unterminated `<` at
the end of input is ordinary text and is folded back into the final span. -/
def splitTagsGo (t : Str) (cap : Option Str) : Str → List Str
  | [] =>
      (match cap with
       | none => [t]
       | some b => [t ++ '<' :: b])
  | c :: rest =>
      match cap with
      | none =>
          if c = '<' then splitTagsGo t (some []) rest
          else splitTagsGo (t ++ [c]) none rest
      | some b =>
          if c = '>' then
            t :: ('<' :: (b ++ ['>'])) :: splitTagsGo [] none rest
          else splitTagsGo t (some (b ++ [c])) rest

/-- `re.split(r'(<[^>]*>)', text)`: the alternating list of non-tag and
captured tag spans (possibly containing empty spans, as in Python). -/
def splitTags (s : Str) : List Str := splitTagsGo [] none s

def startsWithC (c : Char) (s : Str) : Bool :=
  match s with
  | [] => false
  | x :: _ => x = c

def endsWithC (c : Char) (s : Str) : Bool :=
  match s.getLast? with
  | none => false
  | some x => x = c

/-- The body of the per-span loop of `translate_text_with_html`: tag spans
(`<...>`) pass through; other spans are stripped, translated if nonempty
after stripping (re-attaching one leading/trailing space of the original
span), and re-emitted verbatim if whitespace-only. -/
def processPart (tf : Str → Str) (part : Str) : Str :=
  if startsWithC '<' part && endsWithC '>' part then part
  else
    let clean_text := trimWs part
    if clean_text.isEmpty then part
    else
      let translated := trimWs (tf clean_text)
      let translated :=
        if startsWithC ' ' part then ' ' :: translated else translated
      let translated :=
        if endsWithC ' ' part then translated ++ [' '] else translated
      translated

/-- `HybridTranslator.translate_text_with_html`: split on tags, skip empty
spans, process each span, concatenate in order. -/
def translate_text_with_html (tf : Str → Str) (text : Str) : Str :=
  if ¬ text.contains '<' then trimWs (tf text)
  else
    ((splitTags text).filter (fun p => !p.isEmpty)).foldl
      (fun acc part => acc ++ processPart tf part) []

/-- `HybridTranslator.translate_text_hybrid` (model call + post-processing);
only the parts relevant to the produced record are modelled. -/
def translate_text_hybrid (tf : Str → Str) (cm : CMap) (terms : Terms)
    (text : Str) (source_lang target_lang : String) : TranslationRecord :=
  let model_translation :=
    if text.contains '<' then translate_text_with_html tf text
    else trimWs (tf text)
  let result :=
    process_translation cm terms text model_translation source_lang target_lang
  { result with method := some ("model+terminology_postprocess") }

/-! ### JSON documents and `translate_json_hybrid` -/

mutual
inductive Json where
  | str : Str → Json
  | num : Int → Json
  | boolVal : Bool → Json
  | null : Json
  | arr : JArr → Json
  | obj : JObj → Json
inductive JArr where
  | nil : JArr
  | cons : Json → JArr → JArr
inductive JObj where
  | nil : JObj
  | cons : Str → Json → JObj → JObj
end

mutual
/-- `HybridTranslator.translate_json_hybrid`: recurse through mappings
(preserving keys and their order) and sequences (preserving order), replace
string leaves by the processed translation of `translate_text_hybrid`, and
return every other value unchanged. -/
def translate_json_hybrid (tf : Str → Str) (cm : CMap) (terms : Terms)
    (source_lang target_lang : String) : Json → Json
  | Json.obj kvs =>
      Json.obj (translate_json_obj tf cm terms source_lang target_lang kvs)
  | Json.arr xs =>
      Json.arr (translate_json_arr tf cm terms source_lang target_lang xs)
  | Json.str s =>
      Json.str ((translate_text_hybrid tf cm terms s source_lang
        target_lang).processed_translation)
  | Json.num n => Json.num n
  | Json.boolVal b => Json.boolVal b
  | Json.null => Json.null
def translate_json_arr (tf : Str → Str) (cm : CMap) (terms : Terms)
    (source_lang target_lang : String) : JArr → JArr
  | JArr.nil => JArr.nil
  | JArr.cons x xs =>
      JArr.cons (translate_json_hybrid tf cm terms source_lang target_lang x)
        (translate_json_arr tf cm terms source_lang target_lang xs)
def translate_json_obj (tf : Str → Str) (cm : CMap) (terms : Terms)
    (source_lang target_lang : String) : JObj → JObj
  | JObj.nil => JObj.nil
  | JObj.cons k v kvs =>
      JObj.cons k (translate_json_hybrid tf cm terms source_lang target_lang v)
        (translate_json_obj tf cm terms source_lang target_lang kvs)
end

mutual
/-- The shape of a document: the tree with every string leaf blanked.
Two documents have the same shape exactly when they have the same key sets
in the same order, the same sequence lengths and order, and identical
non-string leaves. -/
def shapeJ : Json → Json
  | Json.str _ => Json.str []
  | Json.num n => Json.num n
  | Json.boolVal b => Json.boolVal b
  | Json.null => Json.null
  | Json.arr xs => Json.arr (shapeA xs)
  | Json.obj kvs => Json.obj (shapeO kvs)
def shapeA : JArr → JArr
  | JArr.nil => JArr.nil
  | JArr.cons x xs => JArr.cons (shapeJ x) (shapeA xs)
def shapeO : JObj → JObj
  | JObj.nil => JObj.nil
  | JObj.cons k v kvs => JObj.cons k (shapeJ v) (shapeO kvs)
end

/-- Keys of a mapping, in insertion order. -/
def keysO : JObj → List Str
  | JObj.nil => []
  | JObj.cons k _ kvs => k :: keysO kvs

/-- Length of a sequence. -/
def lenA : JArr → Nat
  | JArr.nil => 0
  | JArr.cons _ xs => lenA xs + 1

mutual
theorem shape_trJ (tf : Str → Str) (cm : CMap) (terms : Terms)
    (sl tl : String) :
    (j : Json) →
      shapeJ (translate_json_hybrid tf cm terms sl tl j) = shapeJ j
  | Json.str s => by simp [translate_json_hybrid, shapeJ]
  | Json.num n => by simp [translate_json_hybrid]
  | Json.boolVal b => by simp [translate_json_hybrid]
  | Json.null => by simp [translate_json_hybrid]
  | Json.arr xs => by
      simp only [translate_json_hybrid, shapeJ]
      rw [shape_trA tf cm terms sl tl xs]
  | Json.obj kvs => by
      simp only [translate_json_hybrid, shapeJ]
      rw [shape_trO tf cm terms sl tl kvs]
theorem shape_trA (tf : Str → Str) (cm : CMap) (terms : Terms)
    (sl tl : String) :
    (xs : JArr) →
      shapeA (translate_json_arr tf cm terms sl tl xs) = shapeA xs
  | JArr.nil => by simp [translate_json_arr]
  | JArr.cons x xs => by
      simp only [translate_json_arr, shapeA]
      rw [shape_trJ tf cm terms sl tl x, shape_trA tf cm terms sl tl xs]
theorem shape_trO (tf : Str → Str) (cm : CMap) (terms : Terms)
    (sl tl : String) :
    (kvs : JObj) →
      shapeO (translate_json_obj tf cm terms sl tl kvs) = shapeO kvs
  | JObj.nil => by simp [translate_json_obj]
  | JObj.cons k v kvs => by
      simp only [translate_json_obj, shapeO]
      rw [shape_trJ tf cm terms sl tl v, shape_trO tf cm terms sl tl kvs]
end

theorem keys_trO (tf : Str → Str) (cm : CMap) (terms : Terms)
    (sl tl : String) :
    (kvs : JObj) →
      keysO (translate_json_obj tf cm terms sl tl kvs) = keysO kvs
  | JObj.nil => by simp [translate_json_obj]
  | JObj.cons k v kvs => by
      simp [translate_json_obj, keysO, keys_trO tf cm terms sl tl kvs]

theorem len_trA (tf : Str → Str) (cm : CMap) (terms : Terms)
    (sl tl : String) :
    (xs : JArr) →
      lenA (translate_json_arr tf cm terms sl tl xs) = lenA xs
  | JArr.nil => by simp [translate_json_arr]
  | JArr.cons x xs => by
      simp [translate_json_arr, lenA, len_trA tf cm terms sl tl xs]

/-- C1: `translate_json_hybrid` preserves the structure of the document —
the output has the same shape as the input (same key lists in insertion
order, same sequence lengths and element order, identical non-string
leaves), every string leaf is replaced by its processed translation, and
every non-string leaf (number, boolean, null) is returned unchanged. -/
theorem c1_translate_json_structure (tf : Str → Str) (cm : CMap)
    (terms : Terms) (sl tl : String) :
    (∀ j : Json,
        shapeJ (translate_json_hybrid tf cm terms sl tl j) = shapeJ j) ∧
    (∀ kvs : JObj,
        keysO (translate_json_obj tf cm terms sl tl kvs) = keysO kvs) ∧
    (∀ xs : JArr,
        lenA (translate_json_arr tf cm terms sl tl xs) = lenA xs) ∧
    (∀ s : Str,
        translate_json_hybrid tf cm terms sl tl (Json.str s) =
          Json.str ((translate_text_hybrid tf cm terms s sl
            tl).processed_translation)) ∧
    (∀ n : Int,
        translate_json_hybrid tf cm terms sl tl (Json.num n) = Json.num n) ∧
    (∀ b : Bool,
        translate_json_hybrid tf cm terms sl tl (Json.boolVal b) =
          Json.boolVal b) ∧
    translate_json_hybrid tf cm terms sl tl Json.null = Json.null := by
  refine ⟨shape_trJ tf cm terms sl tl, keys_trO tf cm terms sl tl,
    len_trA tf cm terms sl tl, ?_, ?_, ?_, ?_⟩ <;>
  simp [translate_json_hybrid]

/-! ### Closed form of the quality scorer -/

/-- The accumulated (unfloored) score of `calculate_quality_score`. -/
def qsRaw (cm : CMap) (original translated : Str) (target_lang : String) :
    Int :=
  (if trimWs translated = [] then (0 : Int)
   else (100 : Int) -
     20 * ((check_common_mistakes cm translated target_lang).length : Int))
  - (if 5 * translated.length < original.length then (15 : Int) else 0)
  - (if eqAsSets (findall_tags original) (findall_tags translated) then (0 : Int)
     else 10)

/-- The issue list of `calculate_quality_score`. -/
def qsIssues (cm : CMap) (original translated : Str) (target_lang : String) :
    List Issue :=
  check_common_mistakes cm translated target_lang
  ++ (if trimWs translated = [] then [emptyIssue] else [])
  ++ (if 5 * translated.length < original.length then [tooShortIssue] else [])
  ++ (if eqAsSets (findall_tags original) (findall_tags translated) then []
      else [htmlIssue])

theorem calculate_quality_score_eq (cm : CMap) (original translated : Str)
    (target_lang : String) :
    calculate_quality_score cm original translated target_lang =
      { score := max 0 (qsRaw cm original translated target_lang),
        issues := qsIssues cm original translated target_lang,
        needs_review :=
          decide (qsRaw cm original translated target_lang < 70) } := by
  unfold calculate_quality_score qsRaw qsIssues
  dsimp only
  rw [mistakes_foldl_closed]
  split_ifs <;> simp

/-- The number of detected common-mistake issues counts, per dictionary
pair, the wrong variants that occur at all — not their occurrences. -/
theorem check_length_formula (cm : CMap) (lang : String) (t : Str) :
    (check_common_mistakes cm t lang).length =
      ((cm lang).map (fun p =>
        (p.2.filter (fun w => isSubstr (lowerStr w) (lowerStr t))).length)).sum := by
  unfold check_common_mistakes
  dsimp only
  rw [List.length_flatMap]
  congr 1
  simp

/-- Extending the translated text on the right can only add detected
common-mistake issues. -/
theorem check_length_mono (cm : CMap) (lang : String) (t w : Str) :
    (check_common_mistakes cm t lang).length ≤
      (check_common_mistakes cm (t ++ w) lang).length := by
  rw [check_length_formula, check_length_formula]
  apply List.sum_le_sum
  intro p _
  apply List.Sublist.length_le
  apply List.monotone_filter_right
  intro a ha
  rw [lowerStr_append]
  exact isSubstr_append_right _ _ _ ha

def cmC3 : CMap := fun _ => []

/-- C3: if the translated text is empty after trimming whitespace, the
quality result has score exactly 0 and needs_review, and its issues contain
an `empty_translation` issue of confidence 1, for every original text,
target language and dictionary. -/
theorem c3_empty_translation_override (cm : CMap) (original : Str)
    (target_lang : String) (translated : Str) (h : trimWs translated = []) :
    (calculate_quality_score cm original translated target_lang).score = 0 ∧
    (calculate_quality_score cm original translated
      target_lang).needs_review = true ∧
    emptyIssue ∈
      (calculate_quality_score cm original translated target_lang).issues ∧
    emptyIssue.confidence = 1 := by
  rw [calculate_quality_score_eq]
  refine ⟨?_, ?_, ?_, rfl⟩
  · show max 0 (qsRaw cm original translated target_lang) = 0
    unfold qsRaw
    rw [if_pos h]
    split_ifs <;> simp
  · show decide (qsRaw cm original translated target_lang < 70) = true
    unfold qsRaw
    rw [if_pos h]
    split_ifs <;> simp
  · show emptyIssue ∈ qsIssues cm original translated target_lang
    unfold qsIssues
    rw [if_pos h]
    simp

theorem c3_empty_translation_override_witness :
    (calculate_quality_score cmC3 (("ab").data) ((" ").data)
      ("english")).score = 0 ∧
    (calculate_quality_score cmC3 (("ab").data) ((" ").data)
      ("english")).needs_review = true :=
  ⟨(c3_empty_translation_override cmC3 (("ab").data) ("english")
      ((" ").data) (by decide)).1,
   (c3_empty_translation_override cmC3 (("ab").data) ("english")
      ((" ").data) (by decide)).2.1⟩

/-- The word-substitution loop of `translate_with_terminology` in closed
form: the substituted word list and the `has_terminology` flag. -/
theorem terminology_foldl_closed (terms : Terms) (sl tl : String)
    (ws : List Str) (acc : List Str) (b : Bool) :
    ws.foldl
      (fun (acc : List Str × Bool) word =>
        match truthyO (get_term_translation terms (cleanLower word) sl tl) with
        | some term_trans => (acc.1 ++ [term_trans], true)
        | none => (acc.1 ++ [word], acc.2))
      (acc, b) =
    (acc ++ ws.map (fun word =>
        (truthyO (get_term_translation terms (cleanLower word) sl tl)).getD
          word),
     b || ws.any (fun word =>
        (truthyO (get_term_translation terms (cleanLower word) sl
          tl)).isSome)) := by
  induction ws generalizing acc b with
  | nil => simp
  | cons w ws ih =>
      simp only [List.foldl_cons, List.map_cons, List.any_cons]
      rcases hw : truthyO (get_term_translation terms (cleanLower w) sl tl)
        with _ | v
      · dsimp only
        rw [ih]
        simp [hw]
      · dsimp only
        rw [ih]
        simp [hw]

def cmC4 : CMap :=
  fun lang =>
    if lang = ("english") then [((("good").data), [(("badx").data)])] else []

/-- C4 counterexample: introducing one additional known wrong-term
occurrence *can* increase the score.  With the wrong variant `badx`
configured, the empty translation of a 25-character original scores 0, but
inserting one occurrence of `badx` (the translation becomes exactly `badx`,
one occurrence, up from zero) scores 65: the inserted text lifts the
empty-translation override while the too-short penalty stays, so the score
strictly increases. -/
theorem c4_counterexample :
    (calculate_quality_score cmC4 (("aaaaaaaaaaaaaaaaaaaaaaaaa").data) ([])
      ("english")).score = 0 ∧
    (calculate_quality_score cmC4 (("aaaaaaaaaaaaaaaaaaaaaaaaa").data)
      ((("badx").data)) ("english")).score = 65 ∧
    countOccur (("badx").data) ([]) = 0 ∧
    countOccur (("badx").data) (("badx").data) = 1 := by
  decide

/-- C4 (amended): the returned score always satisfies
`0 ≤ score ≤ 100` (it is `max 0` of the accumulated score), and
`needs_review` holds exactly when the final score is below 70.  Appending
text containing one more wrong-term occurrence never increases the score
*provided* the outcomes of the empty-translation, too-short and
HTML-mismatch rules are unchanged by the insertion; without that proviso
the score can increase (see the counterexample). -/
theorem c4_amended (cm : CMap) (lang : String) :
    (∀ original translated : Str,
       0 ≤ (calculate_quality_score cm original translated lang).score ∧
       (calculate_quality_score cm original translated lang).score ≤ 100) ∧
    (∀ original translated : Str,
       ((calculate_quality_score cm original translated lang).needs_review
          = true) ↔
       (calculate_quality_score cm original translated lang).score < 70) ∧
    (∀ original t w : Str,
       (trimWs (t ++ w) = [] ↔ trimWs t = []) →
       (5 * (t ++ w).length < original.length ↔
         5 * t.length < original.length) →
       eqAsSets (findall_tags original) (findall_tags (t ++ w)) =
         eqAsSets (findall_tags original) (findall_tags t) →
       (calculate_quality_score cm original (t ++ w) lang).score ≤
         (calculate_quality_score cm original t lang).score) := by
  refine ⟨?_, ?_, ?_⟩
  · intro original translated
    rw [calculate_quality_score_eq]
    show 0 ≤ max 0 (qsRaw cm original translated lang) ∧
      max 0 (qsRaw cm original translated lang) ≤ 100
    have : qsRaw cm original translated lang ≤ 100 := by
      unfold qsRaw
      split_ifs <;> omega
    omega
  · intro original translated
    rw [calculate_quality_score_eq]
    show (decide (qsRaw cm original translated lang < 70) = true) ↔
      max 0 (qsRaw cm original translated lang) < 70
    simp only [decide_eq_true_eq]
    omega
  · intro original t w he hs hh
    rw [calculate_quality_score_eq, calculate_quality_score_eq]
    show max 0 (qsRaw cm original (t ++ w) lang) ≤
      max 0 (qsRaw cm original t lang)
    have hk := check_length_mono cm lang t w
    unfold qsRaw
    rw [hh]
    by_cases h1 : trimWs t = []
    · rw [if_pos h1, if_pos (he.mpr h1)]
      by_cases h2 : 5 * t.length < original.length
      · rw [if_pos h2, if_pos (hs.mpr h2)]
      · rw [if_neg h2, if_neg (fun hc => h2 (hs.mp hc))]
    · rw [if_neg h1, if_neg (fun hc => h1 (he.mp hc))]
      by_cases h2 : 5 * t.length < original.length
      · rw [if_pos h2, if_pos (hs.mpr h2)]
        split_ifs <;> omega
      · rw [if_neg h2, if_neg (fun hc => h2 (hs.mp hc))]
        split_ifs <;> omega

theorem c4_amended_witness :
    (calculate_quality_score cmC4 (("ab").data) (("badx y").data)
      ("english")).score ≤
      (calculate_quality_score cmC4 (("ab").data) (("badx").data)
        ("english")).score :=
  (c4_amended cmC4 ("english")).2.2 (("ab").data) (("badx").data)
    ((" y").data) (by decide) (by decide) (by decide)

def cmC2 : CMap :=
  fun lang =>
    if lang = ("english") then [((("good").data), [(("badx").data)])] else []

/-- Whether the word-boundary pattern for `w` matches anywhere in the rest
of the text, given the word-ness of the previous character. -/
def hasWBGo (w : Str) (prevW : Bool) : Str → Bool
  | [] => false
  | x :: rest => wbMatchAt w prevW (x :: rest) || hasWBGo w (isWordC x) rest

/-- Whether `re.compile(r'\b' + re.escape(w) + r'\b', re.IGNORECASE)`
matches anywhere in `t`. -/
def hasWB (w t : Str) : Bool := hasWBGo w false t

theorem subWBGo_id_of_no_match (w c : Str) (t : Str) :
    ∀ prevW : Bool, hasWBGo w prevW t = false → subWBGo w c 0 prevW t = t := by
  induction t with
  | nil => intro prevW _; rfl
  | cons x rest ih =>
      intro prevW h
      simp only [hasWBGo, Bool.or_eq_false_iff] at h
      simp only [subWBGo, h.1, Bool.false_eq_true, if_false]
      rw [ih (isWordC x) h.2]

/-- If no fix's word-boundary pattern matches `text`, the whole
`apply_terminology_fixes` pass leaves `text` unchanged (whatever the
substring gates say). -/
theorem apply_terminology_fixes_id (tm : Terms) (text : Str)
    (sl tl : String)
    (h : ∀ p ∈ commonFixes, hasWB p.1 text = false) :
    apply_terminology_fixes tm text sl tl = text := by
  unfold apply_terminology_fixes
  dsimp only
  have hgen : ∀ fixes : List (Str × Str),
      (∀ p ∈ fixes, hasWB p.1 text = false) →
      fixes.foldl (fun t wc =>
        if isSubstr wc.1 (lowerStr text) then subWB wc.1 wc.2 t else t)
        text = text := by
    intro fixes
    induction fixes with
    | nil => intro _; rfl
    | cons p rest ih =>
        intro hall
        simp only [List.foldl_cons]
        have hp : subWB p.1 p.2 text = text :=
          subWBGo_id_of_no_match p.1 p.2 text false
            (hall p (List.mem_cons_self p rest))
        have : (if isSubstr p.1 (lowerStr text) then subWB p.1 p.2 text
            else text) = text := by
          split_ifs <;> simp [hp]
        rw [this]
        exact ih (fun q hq => hall q (List.mem_cons_of_mem p hq))
  exact hgen commonFixes h

def tmEmpty : Terms := ⟨fun _ => none, fun _ => none⟩

/-- C8 counterexample: the hardcoded fix table is *not* language-pair
specific in application — every fix is applied for every language pair.
The German fix `resorptionen → abonnements` fires in the turkish→english
pair (and even for an unsupported pair), and the English fix
`exit → logout` fires in the english→german pair. -/
theorem c8_counterexample :
    apply_terminology_fixes tmEmpty (("resorptionen").data) ("turkish")
      ("english") = ("abonnements").data ∧
    apply_terminology_fixes tmEmpty (("exit").data) ("english") ("german") =
      ("logout").data ∧
    apply_terminology_fixes tmEmpty (("resorptionen").data) ("french")
      ("spanish") = ("abonnements").data := by
  decide

/-- C8 (amended): the Corrector's terminology-fixing stage applies the
fixed hardcoded table of wrong → correct pairs, matching case-insensitively
at word boundaries and replacing whole words only; but the table is shared
across language pairs: the result is independent of the source/target
languages and of the terminology dictionary (the language-pair branch only
builds an unused reverse map).  Whole-word granularity: when no fix matches
at word boundaries the text is unchanged (`exits` is untouched although
`exit` is a substring), while `EXIT` is replaced case-insensitively. -/
theorem c8_amended :
    (∀ (tm tm' : Terms) (text : Str) (sl tl sl' tl' : String),
       apply_terminology_fixes tm text sl tl =
       apply_terminology_fixes tm' text sl' tl') ∧
    (∀ (tm : Terms) (text : Str) (sl tl : String),
       (∀ p ∈ commonFixes, hasWB p.1 text = false) →
       apply_terminology_fixes tm text sl tl = text) ∧
    apply_terminology_fixes tmEmpty (("exits").data) ("turkish") ("english")
      = ("exits").data ∧
    apply_terminology_fixes tmEmpty (("EXIT").data) ("turkish") ("english")
      = ("logout").data := by
  refine ⟨fun _ _ _ _ _ _ _ => rfl, apply_terminology_fixes_id, ?_, ?_⟩ <;>
    decide

theorem c8_amended_witness :
    apply_terminology_fixes tmEmpty (("hello world").data) ("turkish")
      ("english") = ("hello world").data :=
  c8_amended.2.1 tmEmpty (("hello world").data) ("turkish") ("english")
    (by decide)

def cmC9 : CMap :=
  fun lang =>
    if lang = ("english") then [((("aa").data), [(("a").data)])] else []

/-- C9 counterexample: `fix_common_mistakes` is not idempotent for every
dictionary.  With correct term `aa` and wrong variant `a`, the input `a` is
fixed to `aa`, and a second application yields `aaaa` (each `a` is again a
wrong-variant occurrence), so applying the stage twice changes the text
again. -/
theorem c9_counterexample :
    fix_common_mistakes cmC9
      (fix_common_mistakes cmC9 (("a").data) ("english")) ("english") ≠
      fix_common_mistakes cmC9 (("a").data) ("english") ∧
    fix_common_mistakes cmC9 (("a").data) ("english") = ("aa").data ∧
    fix_common_mistakes cmC9
      (fix_common_mistakes cmC9 (("a").data) ("english")) ("english") =
      ("aaaa").data := by
  decide

/-! ### `apply_terminology_fixes` is unconditionally idempotent

The hardcoded table can never re-create a word-boundary occurrence of one
of its own keys: no correct value contains a key case-insensitively, every
boundary-compatible key-prefix suffix of a correct value is blocked by a
preceding word character, and no correct value starts with the letter that
follows the space inside the one multi-word key.  Below, a `subWB` pass is
shown to transfer every word-boundary occurrence of a table key in its
output to one in its input, while clearing its own key; hence after one
full `apply_terminology_fixes` pass no key matches anywhere (its own gate
on the original text rules out the never-substituted keys), and a second
pass is the identity. -/

theorem uint32_le_iff (a b : UInt32) : (a ≤ b) ↔ a.toNat ≤ b.toNat := by
  simp [UInt32.le_def, UInt32.toNat, BitVec.le_def]

theorem char_toNat_ofNat (n : Nat) (h1 : 97 ≤ n) (h2 : n ≤ 122) :
    (Char.ofNat n).toNat = n := by
  have hv : n.isValidChar := by left; omega
  rw [Char.ofNat, dif_pos hv]
  rw [Char.ofNatAux, Char.toNat]
  exact BitVec.toNat_ofNatLt n _

/-- `\w`-ness is invariant under `str.lower`. -/
theorem isWordC_toLower (ch : Char) :
    isWordC (Char.toLower ch) = isWordC ch := by
  rw [Char.toLower]
  by_cases h : ch.toNat ≥ 65 ∧ ch.toNat ≤ 90
  · rw [if_pos h]
    have hv : (Char.ofNat (ch.toNat + 32)).toNat = ch.toNat + 32 :=
      char_toNat_ofNat _ (by omega) (by omega)
    have hlhs : isWordC (Char.ofNat (ch.toNat + 32)) = true := by
      simp only [isWordC, Char.isAlphanum, Char.isAlpha, Char.isLower,
        Char.isUpper, Bool.or_eq_true, Bool.and_eq_true, decide_eq_true_eq,
        ge_iff_le, uint32_le_iff]
      left; left; right
      rw [show ((97 : UInt32)).toNat = 97 from rfl,
        show ((122 : UInt32)).toNat = 122 from rfl,
        show ((Char.ofNat (ch.toNat + 32)).val).toNat = ch.toNat + 32 from hv]
      omega
    have hrhs : isWordC ch = true := by
      simp only [isWordC, Char.isAlphanum, Char.isAlpha, Char.isLower,
        Char.isUpper, Bool.or_eq_true, Bool.and_eq_true, decide_eq_true_eq,
        ge_iff_le, uint32_le_iff]
      left; left; left
      rw [show ((65 : UInt32)).toNat = 65 from rfl,
        show ((90 : UInt32)).toNat = 90 from rfl]
      exact ⟨h.1, h.2⟩
    rw [hlhs, hrhs]
  · rw [if_neg h]

theorem lowerStr_length (s : Str) : (lowerStr s).length = s.length := by
  simp [lowerStr]

theorem lowerStr_cons (x : Char) (s : Str) :
    lowerStr (x :: s) = Char.toLower x :: lowerStr s := rfl

theorem getLastD_irrel (b : Str) (hb : b ≠ []) (d d' : Char) :
    b.getLastD d = b.getLastD d' := by
  cases b with
  | nil => exact absurd rfl hb
  | cons y ys => rw [List.getLastD_cons, List.getLastD_cons]

theorem getLastD_append_right (a b : Str) (hb : b ≠ []) (d : Char) :
    (a ++ b).getLastD d = b.getLastD d := by
  induction a generalizing d with
  | nil => rfl
  | cons x xs ih =>
      rw [List.cons_append, List.getLastD_cons, ih x]
      exact getLastD_irrel b hb x d

theorem getLastD_cons_ne (x : Char) (a : Str) (ha : a ≠ []) (d : Char) :
    (x :: a).getLastD d = a.getLastD d := by
  rw [List.getLastD_cons]
  exact getLastD_irrel a ha x d

theorem getD_last_of_ne (a : Str) (ha : a ≠ []) (d : Char) :
    a.getD (a.length - 1) d = a.getLastD d := by
  induction a with
  | nil => exact absurd rfl ha
  | cons x xs ih =>
      cases xs with
      | nil => rfl
      | cons y ys =>
          have h1 : (x :: y :: ys).length - 1 = ys.length + 1 := by simp
          rw [h1, List.getD_cons_succ]
          have h2 : ys.length = (y :: ys).length - 1 := by simp
          rw [h2, ih (by simp)]
          exact (getLastD_cons_ne x (y :: ys) (by simp) d).symm

theorem headD_append_left (b x : Str) (hb : b ≠ []) (d : Char) :
    (b ++ x).headD d = b.headD d := by
  cases b with
  | nil => exact absurd rfl hb
  | cons y ys => rfl

theorem headD_drop (l : Str) : ∀ (j : Nat) (d : Char),
    (l.drop j).headD d = l.getD j d := by
  induction l with
  | nil => intro j d; cases j <;> rfl
  | cons x xs ih =>
      intro j d
      cases j with
      | zero => rfl
      | succ j' => exact ih j' d

/-- The previous position allows a `\b` before a word character here:
either nothing precedes (`pv` says the virtual previous character is
non-word) or the previous character is non-word. -/
def leftOK (a : Str) (pv : Bool) : Prop :=
  (a = [] ∧ pv = false) ∨ (a ≠ [] ∧ isWordC (a.getLastD ' ') = false)

/-- A `\b` after a word character: end of string or a non-word follower. -/
def rightOK (b : Str) : Prop :=
  b = [] ∨ isWordC (b.headD ' ') = false

/-- A word-boundary occurrence of `w` (a pattern beginning and ending in
word characters) somewhere in `v`, where `pv` is the word-ness of the
character just before `v` in the surrounding string. -/
def OccAt (w : Str) (pv : Bool) (v : Str) : Prop :=
  ∃ a m b, v = a ++ m ++ b ∧ lowerStr m = lowerStr w ∧
    leftOK a pv ∧ rightOK b

theorem wbMatchAt_iff (w : Str) (pv : Bool) (u : Str) :
    wbMatchAt w pv u = true ↔
      (w ≠ [] ∧ lowerStr (u.take w.length) = lowerStr w ∧
        pv ≠ isWordC (w.headD ' ') ∧
        isWordC (w.getLastD ' ') ≠ nextIsWord w u) := by
  simp [wbMatchAt, and_assoc, bne_iff_ne]

theorem subWBGo_skip_drop (w c : Str) : ∀ (u : Str) (k : Nat) (pv : Bool),
    subWBGo w c k pv u = subWBGo w c 0 pv (u.drop k) := by
  intro u
  induction u with
  | nil => intro k pv; cases k <;> rfl
  | cons x rest ih =>
      intro k pv
      cases k with
      | zero => rfl
      | succ k' =>
          show subWBGo w c k' pv rest = _
          rw [ih k' pv, List.drop_succ_cons]

theorem subWBGo_match_eq (w c : Str) (pv : Bool) (x : Char) (rest : Str)
    (h : wbMatchAt w pv (x :: rest) = true) :
    subWBGo w c 0 pv (x :: rest) =
      c ++ subWBGo w c 0 (isWordC (w.getLastD ' '))
        ((x :: rest).drop w.length) := by
  obtain ⟨hw, -, -, -⟩ := (wbMatchAt_iff w pv (x :: rest)).mp h
  have hw1 : 1 ≤ w.length := by
    cases w with
    | nil => exact absurd rfl hw
    | cons a b => simp
  have hdrop : (x :: rest).drop w.length = rest.drop (w.length - 1) := by
    conv_lhs => rw [show w.length = (w.length - 1) + 1 by omega]
    rw [List.drop_succ_cons]
  conv_lhs => rw [subWBGo]
  rw [if_pos h]
  conv_lhs => rw [subWBGo_skip_drop]
  rw [hdrop]

theorem subWBGo_nomatch_eq (w c : Str) (pv : Bool) (x : Char) (rest : Str)
    (h : wbMatchAt w pv (x :: rest) = false) :
    subWBGo w c 0 pv (x :: rest) = x :: subWBGo w c 0 (isWordC x) rest := by
  conv_lhs => rw [subWBGo]
  rw [if_neg (by rw [h]; exact Bool.false_ne_true)]

theorem subWBGo_eq_nil (w c : Str) (hc : c ≠ []) (pv : Bool) (u : Str)
    (h : subWBGo w c 0 pv u = []) : u = [] := by
  cases u with
  | nil => rfl
  | cons x rest =>
      by_cases hm : wbMatchAt w pv (x :: rest) = true
      · rw [subWBGo_match_eq w c pv x rest hm] at h
        exact absurd (List.append_eq_nil.mp h).1 hc
      · rw [subWBGo_nomatch_eq w c pv x rest
          (Bool.not_eq_true _ ▸ hm : wbMatchAt w pv (x :: rest) = false)] at h
        exact absurd h (List.cons_ne_nil x _)

/-- Locating the pattern piece of an occurrence in a concatenation. -/
theorem append3_split (a m b cc X : Str)
    (h : a ++ (m ++ b) = cc ++ X) :
    (∃ a', a = cc ++ a' ∧ a' ++ (m ++ b) = X) ∨
    (∃ g, cc = a ++ (m ++ g) ∧ b = g ++ X) ∨
    (∃ m1 m2, m = m1 ++ m2 ∧ m1 ≠ [] ∧ m2 ≠ [] ∧ cc = a ++ m1 ∧
      X = m2 ++ b) := by
  rcases List.append_eq_append_iff.mp h with ⟨k, hk1, hk2⟩ | ⟨k, hk1, hk2⟩
  · -- cc = a ++ k and m ++ b = k ++ X
    rcases List.append_eq_append_iff.mp hk2 with ⟨j, hj1, hj2⟩ | ⟨j, hj1, hj2⟩
    · -- k = m ++ j and b = j ++ X
      exact Or.inr (Or.inl ⟨j, by rw [hk1, hj1], hj2⟩)
    · -- m = k ++ j and X = j ++ b
      by_cases hk : k = []
      · subst hk
        simp only [List.append_nil] at hk1
        simp only [List.nil_append] at hj1
        refine Or.inl ⟨[], by rw [hk1]; simp, ?_⟩
        rw [hj2, hj1]
        simp
      · by_cases hj : j = []
        · subst hj
          simp only [List.append_nil] at hj1
          simp only [List.nil_append] at hj2
          refine Or.inr (Or.inl ⟨[], ?_, ?_⟩)
          · rw [hk1, hj1]
            simp
          · rw [hj2]
            simp
        · exact Or.inr (Or.inr ⟨k, j, hj1, hk, hj, hk1, hj2⟩)
  · -- a = cc ++ k and X = k ++ (m ++ b)
    exact Or.inl ⟨k, hk1, hk2.symm⟩

/-- Soundness direction of the word-boundary search: a hit of the scanner
is a positional word-boundary occurrence. -/
theorem hasWBGo_occ (w : Str) (hw2 : isWordC (w.headD ' ') = true)
    (hw3 : isWordC (w.getLastD ' ') = true) :
    ∀ (u : Str) (pv : Bool), hasWBGo w pv u = true → OccAt w pv u := by
  intro u
  induction u with
  | nil => intro pv h; simp [hasWBGo] at h
  | cons x rest ih =>
      intro pv h
      rcases (Bool.or_eq_true _ _).mp (by simpa [hasWBGo] using h) with
        hm | ht
      · obtain ⟨hw, hpre, hpv, hend⟩ := (wbMatchAt_iff w pv (x :: rest)).mp hm
        have hpv' : pv = false := by
          rw [hw2] at hpv
          cases pv with
          | false => rfl
          | true => exact absurd rfl hpv
        refine ⟨[], (x :: rest).take w.length, (x :: rest).drop w.length,
          by simp, hpre, Or.inl ⟨rfl, hpv'⟩, ?_⟩
        rw [hw3] at hend
        have hni : nextIsWord w (x :: rest) = false := by
          cases hni : nextIsWord w (x :: rest) with
          | false => rfl
          | true => exact absurd (hni ▸ rfl) hend
        unfold nextIsWord at hni
        rcases hd : (x :: rest).drop w.length with _ | ⟨y, ys⟩
        · exact Or.inl rfl
        · rw [hd] at hni
          exact Or.inr (by simpa using hni)
      · obtain ⟨a, m, b, hv, hlm, hl, hr⟩ := ih (isWordC x) ht
        refine ⟨x :: a, m, b, by rw [hv]; rfl, hlm, ?_, hr⟩
        rcases hl with ⟨ha, hpw⟩ | ⟨ha, hlast⟩
        · subst ha
          exact Or.inr ⟨List.cons_ne_nil x [], by simpa using hpw⟩
        · exact Or.inr ⟨List.cons_ne_nil x a,
            by rw [getLastD_cons_ne x a ha ' ']; exact hlast⟩

/-- Tracing a case-insensitive copy of a suffix of the key `wp` at the
head of the scanner output for the pass `(w, c)`: no replacement can start
inside the traced region (at its start the scanner is given not to match,
and later starts would need the previous character to be non-word, which
inside `wp` only happens right after its internal non-word characters,
where fact `hF7` blocks the replacement's first character), so the traced
characters are literally the input's leading characters and the output
character following them is the corresponding input character. -/
theorem subWB_trace (w c wp : Str)
    (hw2 : isWordC (w.headD ' ') = true)
    (hwp1 : wp ≠ [])
    (hwp3 : isWordC (wp.getLastD ' ') = true)
    (hc1 : c ≠ [])
    (hF7 : ∀ j, j < wp.length → 1 ≤ j →
      isWordC (wp.getD (j - 1) ' ') = false →
      Char.toLower (wp.getD j ' ') ≠ Char.toLower (c.headD ' ')) :
    ∀ (r : Str) (j : Nat), j ≤ wp.length → r = wp.drop j →
    ∀ (u : Str) (pv : Bool) (m b : Str),
      (pv = false → (j = 0 ∧ wbMatchAt w pv u = false) ∨
        (1 ≤ j ∧ isWordC (wp.getD (j - 1) ' ') = false)) →
      subWBGo w c 0 pv u = m ++ b →
      lowerStr m = lowerStr r →
      m = u.take m.length ∧ m.length ≤ u.length ∧
        (b = [] ↔ u.drop m.length = []) ∧
        b.headD ' ' = (u.drop m.length).headD ' ' := by
  intro r
  induction r with
  | nil =>
      intro j hj hr u pv m b hinv hG hlm
      have hm0 : m = [] := by
        have hl := congrArg List.length hlm
        simp only [lowerStr_length, List.length_nil] at hl
        exact List.length_eq_zero.mp hl
      subst hm0
      simp only [List.nil_append] at hG
      have hpv : pv = true := by
        by_contra hpvn
        have hpvf : pv = false := by
          cases pv
          · rfl
          · exact absurd rfl hpvn
        rcases hinv hpvf with ⟨hj0, -⟩ | ⟨hj1, hnw⟩
        · rw [hj0, List.drop_zero] at hr
          exact hwp1 hr.symm
        · have hjlen : wp.length ≤ j := by
            by_contra hlt
            push_neg at hlt
            have hd : wp.drop j ≠ [] := by
              rw [ne_eq, List.drop_eq_nil_iff]
              omega
            exact hd hr.symm
          have hje : j = wp.length := by omega
          rw [hje] at hnw
          rw [getD_last_of_ne wp hwp1 ' ', hwp3] at hnw
          exact Bool.true_eq_false ▸ hnw ▸ rfl
      subst hpv
      subst hG
      refine ⟨rfl, by simp, ?_, ?_⟩
      · rw [List.length_nil, List.drop_zero]
        cases u with
        | nil => simp [subWBGo]
        | cons x rest =>
            have hnm : wbMatchAt w true (x :: rest) = false := by
              cases hmm : wbMatchAt w true (x :: rest)
              · rfl
              · obtain ⟨-, -, hpv', -⟩ := (wbMatchAt_iff _ _ _).mp hmm
                rw [hw2] at hpv'
                exact absurd rfl hpv'
            rw [subWBGo_nomatch_eq w c true x rest hnm]
            simp
      · rw [List.length_nil, List.drop_zero]
        cases u with
        | nil => simp [subWBGo]
        | cons x rest =>
            have hnm : wbMatchAt w true (x :: rest) = false := by
              cases hmm : wbMatchAt w true (x :: rest)
              · rfl
              · obtain ⟨-, -, hpv', -⟩ := (wbMatchAt_iff _ _ _).mp hmm
                rw [hw2] at hpv'
                exact absurd rfl hpv'
            rw [subWBGo_nomatch_eq w c true x rest hnm]
            rfl
  | cons rc r' ih =>
      intro j hj hr u pv m b hinv hG hlm
      have hjlt : j < wp.length := by
        by_contra hge
        push_neg at hge
        have hd : wp.drop j = [] := List.drop_eq_nil_iff.mpr hge
        rw [← hr] at hd
        exact List.cons_ne_nil rc r' hd
      have hrc : rc = wp.getD j ' ' := by
        have hh := congrArg (fun l => l.headD ' ') hr
        simpa [headD_drop] using hh
      have hmlen : m.length = r'.length + 1 := by
        have hl := congrArg List.length hlm
        simpa [lowerStr_length] using hl
      obtain ⟨mh, mt, hm⟩ : ∃ mh mt, m = mh :: mt := by
        cases m with
        | nil => simp at hmlen
        | cons a as => exact ⟨a, as, rfl⟩
      subst hm
      have hlow : Char.toLower mh = Char.toLower rc ∧
          lowerStr mt = lowerStr r' := by
        rw [lowerStr_cons, lowerStr_cons] at hlm
        exact ⟨(List.cons.injEq _ _ _ _).mp hlm |>.1,
          (List.cons.injEq _ _ _ _).mp hlm |>.2⟩
      cases u with
      | nil =>
          rw [show subWBGo w c 0 pv [] = [] from rfl] at hG
          exact absurd hG.symm (List.cons_ne_nil mh (mt ++ b) ∘ by
            intro hq
            exact hq)
      | cons x rest =>
          by_cases hmm : wbMatchAt w pv (x :: rest) = true
          · obtain ⟨hwne, hpre, hpv', hend⟩ := (wbMatchAt_iff _ _ _).mp hmm
            rw [hw2] at hpv'
            have hpvf : pv = false := by
              cases pv
              · rfl
              · exact absurd rfl hpv'
            rcases hinv hpvf with ⟨-, hnomatch⟩ | ⟨hj1, hnw⟩
            · rw [hpvf] at hmm
              rw [hpvf] at hnomatch
              rw [hnomatch] at hmm
              exact absurd hmm Bool.false_ne_true
            · rw [subWBGo_match_eq w c pv x rest hmm] at hG
              have hhead : c.headD ' ' = mh := by
                have hh := congrArg (fun l => l.headD ' ') hG
                simp only at hh
                rw [headD_append_left c _ hc1 ' '] at hh
                simpa using hh
              exact absurd
                (show Char.toLower (wp.getD j ' ') =
                    Char.toLower (c.headD ' ') by
                  rw [← hrc, hhead, hlow.1])
                (hF7 j hjlt hj1 hnw)
          · have hmmf : wbMatchAt w pv (x :: rest) = false := by
              cases hq : wbMatchAt w pv (x :: rest)
              · rfl
              · exact absurd hq hmm
            rw [subWBGo_nomatch_eq w c pv x rest hmmf] at hG
            rw [List.cons_append] at hG
            have hx : x = mh := by
              injection hG with h1 h2
            have hXrest : subWBGo w c 0 (isWordC x) rest = mt ++ b := by
              injection hG with h1 h2
            have hr' : r' = wp.drop (j + 1) := by
              have hdd : wp.drop (j + 1) = (wp.drop j).drop 1 := by
                rw [List.drop_drop]
              rw [hdd, ← hr, List.drop_succ_cons, List.drop_zero]
            have hinv' : isWordC x = false →
                (j + 1 = 0 ∧ wbMatchAt w (isWordC x) rest = false) ∨
                (1 ≤ j + 1 ∧ isWordC (wp.getD (j + 1 - 1) ' ') = false) := by
              intro hxw
              right
              refine ⟨by omega, ?_⟩
              have heq : isWordC (wp.getD j ' ') = isWordC x := by
                rw [← isWordC_toLower (wp.getD j ' '), ← isWordC_toLower x,
                  ← hrc, ← hlow.1, hx]
              rw [show j + 1 - 1 = j from by omega, heq]
              exact hxw
            obtain ⟨IH1, IH2, IH3, IH4⟩ := ih (j + 1) (by omega) hr' rest
              (isWordC x) mt b hinv' hXrest hlow.2
            refine ⟨?_, ?_, ?_, ?_⟩
            · rw [List.length_cons, List.take_succ_cons, ← hx, ← IH1]
            · rw [List.length_cons, List.length_cons]
              omega
            · rw [List.length_cons, List.drop_succ_cons]
              exact IH3
            · rw [List.length_cons, List.drop_succ_cons]
              exact IH4

theorem getD_append_left' (l1 l2 : Str) (n : Nat) (h : n < l1.length)
    (d : Char) : (l1 ++ l2).getD n d = l1.getD n d := by
  simp [List.getD, List.getElem?_append, h]

/-- One `subWB` pass for a pair `(w, c)`: every word-boundary occurrence
of a key `wp` in the output comes from one in the input, and the pass's
own key never survives (`wp ≠ w`).  The table facts say the replacement
text cannot contain (`hF3`), complete from its end (`hF4`) or continue
after an internal non-word character (`hF7`) an occurrence of `wp`. -/
theorem subWB_occ_transfer (w c wp : Str)
    (hw1 : w ≠ []) (hw2 : isWordC (w.headD ' ') = true)
    (hw3 : isWordC (w.getLastD ' ') = true)
    (hc1 : c ≠ []) (hc3 : isWordC (c.getLastD ' ') = true)
    (hwp1 : wp ≠ []) (hwp2 : isWordC (wp.headD ' ') = true)
    (hwp3 : isWordC (wp.getLastD ' ') = true)
    (hF3 : isSubstr (lowerStr wp) (lowerStr c) = false)
    (hF4 : ∀ k, k < c.length + 1 → 1 ≤ k → k < wp.length →
        lowerStr (c.drop (c.length - k)) = lowerStr (wp.take k) →
        (k < c.length ∧ isWordC (c.getD (c.length - k - 1) ' ') = true))
    (hF7 : ∀ j, j < wp.length → 1 ≤ j →
        isWordC (wp.getD (j - 1) ' ') = false →
        Char.toLower (wp.getD j ' ') ≠ Char.toLower (c.headD ' ')) :
    ∀ (n : Nat) (u : Str), u.length ≤ n → ∀ (pv : Bool),
      OccAt wp pv (subWBGo w c 0 pv u) → wp ≠ w ∧ OccAt wp pv u := by
  have hwlen1 : 1 ≤ w.length := by
    cases w with
    | nil => exact absurd rfl hw1
    | cons q qs => simp
  have hnil : ∀ pv : Bool, ¬ OccAt wp pv (subWBGo w c 0 pv []) := by
    intro pv hocc
    obtain ⟨a, m, b, hv, hlm, -, -⟩ := hocc
    rw [show subWBGo w c 0 pv [] = [] from rfl] at hv
    have hm0 : m = [] := by
      rcases List.append_eq_nil.mp
        (List.append_eq_nil.mp hv.symm).1 with ⟨-, h2⟩
      exact h2
    subst hm0
    have hl := congrArg List.length hlm
    simp only [lowerStr_length, List.length_nil] at hl
    exact hwp1 (List.length_eq_zero.mp hl.symm)
  intro n
  induction n with
  | zero =>
      intro u hu pv hocc
      have hu0 : u = [] := List.length_eq_zero.mp (by omega)
      subst hu0
      exact absurd hocc (hnil pv)
  | succ n ihn =>
      intro u hu pv hocc
      cases u with
      | nil => exact absurd hocc (hnil pv)
      | cons x rest =>
          by_cases hmm : wbMatchAt w pv (x :: rest) = true
          · -- a replacement happens at the head
            obtain ⟨hwne, hpre, hpv', hend⟩ := (wbMatchAt_iff _ _ _).mp hmm
            have hwlen : w.length ≤ (x :: rest).length := by
              have hl := congrArg List.length hpre
              simp only [lowerStr_length, List.length_take] at hl
              omega
            rw [subWBGo_match_eq w c pv x rest hmm] at hocc
            obtain ⟨a, m, b, hv, hlm, hl, hr⟩ := hocc
            rw [List.append_assoc] at hv
            have hmwp : m.length = wp.length := by
              have hq := congrArg List.length hlm
              simpa only [lowerStr_length] using hq
            rcases append3_split a m b c
              (subWBGo w c 0 (isWordC (w.getLastD ' '))
                ((x :: rest).drop w.length)) hv.symm with
              ⟨a', ha, hXeq⟩ | ⟨g, hcg, -⟩ |
              ⟨m1, m2, hm12, hm1, hm2, hcm, -⟩
            · -- the occurrence lies beyond the inserted replacement
              by_cases ha' : a' = []
              · subst ha'
                rw [List.append_nil] at ha
                rcases hl with ⟨hae, -⟩ | ⟨-, halast⟩
                · rw [ha] at hae
                  exact absurd hae hc1
                · rw [ha, hc3] at halast
                  exact Bool.noConfusion halast
              · have halast' : isWordC (a'.getLastD ' ') = false := by
                  rcases hl with ⟨hae, -⟩ | ⟨-, halast⟩
                  · rw [ha] at hae
                    exact absurd hae (by simp [hc1])
                  · rw [ha, getLastD_append_right c a' ha' ' '] at halast
                    exact halast
                have hoccX : OccAt wp true (subWBGo w c 0 true
                    ((x :: rest).drop w.length)) := by
                  rw [← hw3]
                  exact ⟨a', m, b,
                    by rw [← hXeq, List.append_assoc], hlm,
                    Or.inr ⟨ha', halast'⟩, hr⟩
                have hul : ((x :: rest).drop w.length).length ≤ n := by
                  simp only [List.length_drop, List.length_cons] at *
                  omega
                obtain ⟨hne, a2, m2', b2, hv2, hlm2, hl2, hr2⟩ :=
                  ihn ((x :: rest).drop w.length) hul true hoccX
                have ha2 : a2 ≠ [] ∧ isWordC (a2.getLastD ' ') = false := by
                  rcases hl2 with ⟨-, hpp⟩ | hh
                  · exact Bool.noConfusion hpp
                  · exact hh
                refine ⟨hne, (x :: rest).take w.length ++ a2, m2', b2,
                  ?_, hlm2, ?_, hr2⟩
                · conv_lhs => rw [← List.take_append_drop w.length (x :: rest)]
                  rw [hv2]
                  simp [List.append_assoc]
                · exact Or.inr ⟨by simp [ha2.1],
                    by rw [getLastD_append_right _ a2 ha2.1 ' ']
                       exact ha2.2⟩
            · -- the occurrence would lie inside the replacement text
              have hsub : isSubstr (lowerStr wp) (lowerStr c) = true := by
                rw [isSubstr_correct]
                exact ⟨lowerStr a, lowerStr g, by
                  rw [hcg, lowerStr_append, lowerStr_append, hlm,
                    List.append_assoc]⟩
              rw [hF3] at hsub
              exact Bool.noConfusion hsub
            · -- the occurrence would span out of the replacement text
              have hm1len : 1 ≤ m1.length := by
                cases m1 with
                | nil => exact absurd rfl hm1
                | cons q qs => simp
              have hm2len : 1 ≤ m2.length := by
                cases m2 with
                | nil => exact absurd rfl hm2
                | cons q qs => simp
              have hmsplit : m.length = m1.length + m2.length := by
                rw [hm12]
                simp
              have hkwp : m1.length < wp.length := by omega
              have hkc : m1.length ≤ c.length := by
                rw [hcm]
                simp
              have hdropc : c.drop (c.length - m1.length) = m1 := by
                rw [hcm, show (a ++ m1).length - m1.length = a.length by simp]
                exact List.drop_left a m1
              have hlowm1 : lowerStr m1 = lowerStr (wp.take m1.length) := by
                have hfull : lowerStr m1 ++ lowerStr m2 = lowerStr wp := by
                  rw [← lowerStr_append, ← hm12, hlm]
                have htk := congrArg (List.take m1.length) hfull
                rw [show m1.length = (lowerStr m1).length from
                  (lowerStr_length m1).symm] at htk
                rw [List.take_left] at htk
                rw [htk, lowerStr_length]
                exact (List.map_take Char.toLower wp m1.length).symm
              obtain ⟨hklt, hword⟩ := hF4 m1.length (by omega) hm1len hkwp
                (by rw [hdropc]; exact hlowm1)
              have hane : a ≠ [] := by
                intro hae
                subst hae
                rw [List.nil_append] at hcm
                rw [hcm] at hklt
                omega
              have hlastc : c.getD (c.length - m1.length - 1) ' ' =
                  a.getLastD ' ' := by
                rw [hcm,
                  show (a ++ m1).length - m1.length - 1 = a.length - 1 by
                    simp]
                rw [getD_append_left' a m1 (a.length - 1)
                  (by cases a with
                      | nil => exact absurd rfl hane
                      | cons q qs => simp) ' ']
                exact getD_last_of_ne a hane ' '
              rcases hl with ⟨hae, -⟩ | ⟨-, halast⟩
              · exact absurd hae hane
              · rw [hlastc, halast] at hword
                exact Bool.noConfusion hword
          · -- the head character is copied verbatim
            have hmmf : wbMatchAt w pv (x :: rest) = false := by
              cases hq : wbMatchAt w pv (x :: rest)
              · rfl
              · exact absurd hq hmm
            rw [subWBGo_nomatch_eq w c pv x rest hmmf] at hocc
            obtain ⟨a, m, b, hv, hlm, hl, hr⟩ := hocc
            cases a with
            | nil =>
                simp only [List.nil_append] at hv
                have hpvf : pv = false := by
                  rcases hl with ⟨-, hp⟩ | ⟨hne, -⟩
                  · exact hp
                  · exact absurd rfl hne
                have hgeq : subWBGo w c 0 pv (x :: rest) = m ++ b := by
                  rw [subWBGo_nomatch_eq w c pv x rest hmmf]
                  exact hv
                obtain ⟨hm_take, hmle, hbiff, hbhead⟩ :=
                  subWB_trace w c wp hw2 hwp1 hwp3 hc1 hF7 wp 0
                    (by omega) (by rw [List.drop_zero]) (x :: rest) pv m b
                    (fun _ => Or.inl ⟨rfl, hmmf⟩) hgeq hlm
                have hrdrop : rightOK ((x :: rest).drop m.length) := by
                  rcases hd : (x :: rest).drop m.length with _ | ⟨y, ys⟩
                  · exact Or.inl rfl
                  · have hbne : b ≠ [] := by
                      intro hbe
                      rw [hbiff.mp hbe] at hd
                      exact List.noConfusion hd
                    have hbw : isWordC (b.headD ' ') = false := by
                      rcases hr with hbe | hh
                      · exact absurd hbe hbne
                      · exact hh
                    rw [hbhead, hd] at hbw
                    exact Or.inr (by simpa using hbw)
                have hoccu : OccAt wp pv (x :: rest) := by
                  refine ⟨[], m, (x :: rest).drop m.length, ?_, hlm,
                    Or.inl ⟨rfl, hpvf⟩, hrdrop⟩
                  rw [List.nil_append]
                  conv_lhs => rw [← List.take_append_drop m.length (x :: rest)]
                  rw [← hm_take]
                refine ⟨?_, hoccu⟩
                intro heq
                have hmwp : m.length = wp.length := by
                  have hq := congrArg List.length hlm
                  simpa only [lowerStr_length] using hq
                have hmatch : wbMatchAt w pv (x :: rest) = true := by
                  rw [wbMatchAt_iff]
                  refine ⟨hw1, ?_, ?_, ?_⟩
                  · rw [← heq, ← hmwp, ← hm_take]
                    exact hlm.trans (by rw [heq])
                  · rw [← heq, hwp2, hpvf]
                    exact fun hq => Bool.noConfusion hq
                  · rw [← heq, hwp3]
                    have hniw : nextIsWord wp (x :: rest) = false := by
                      unfold nextIsWord
                      rw [← hmwp]
                      rcases hd : (x :: rest).drop m.length with _ | ⟨y, ys⟩
                      · rfl
                      · show isWordC y = false
                        rcases hrdrop with hde | hh
                        · rw [hd] at hde
                          exact absurd hde (List.cons_ne_nil y ys)
                        · rw [hd] at hh
                          simpa using hh
                    rw [hniw]
                    exact fun hq => Bool.noConfusion hq
                rw [hmatch] at hmmf
                exact Bool.noConfusion hmmf
            | cons ah at' =>
                rw [List.append_assoc, List.cons_append] at hv
                injection hv with hxa hX'
                have hlA : leftOK at' (isWordC x) := by
                  rcases hl with ⟨hae, -⟩ | ⟨-, halast⟩
                  · exact absurd hae (List.cons_ne_nil ah at')
                  · cases hat : at' with
                    | nil =>
                        left
                        refine ⟨rfl, ?_⟩
                        rw [hat] at halast
                        rw [show (ah :: ([] : Str)).getLastD ' ' = ah from
                          rfl] at halast
                        rw [hxa]
                        exact halast
                    | cons q qs =>
                        right
                        rw [hat] at halast
                        rw [getLastD_cons_ne ah (q :: qs)
                          (List.cons_ne_nil q qs) ' '] at halast
                        exact ⟨List.cons_ne_nil q qs, halast⟩
                have hoccX : OccAt wp (isWordC x)
                    (subWBGo w c 0 (isWordC x) rest) :=
                  ⟨at', m, b, by rw [hX', List.append_assoc], hlm, hlA, hr⟩
                have hul : rest.length ≤ n := by
                  simp only [List.length_cons] at hu
                  omega
                obtain ⟨hne, a2, m2', b2, hv2, hlm2, hl2, hr2⟩ :=
                  ihn rest hul (isWordC x) hoccX
                refine ⟨hne, x :: a2, m2', b2,
                  by rw [hv2, List.cons_append, List.cons_append], hlm2,
                  ?_, hr2⟩
                right
                refine ⟨List.cons_ne_nil x a2, ?_⟩
                cases ha2 : a2 with
                | nil =>
                    rcases hl2 with ⟨-, hp⟩ | ⟨hne2, -⟩
                    · rw [show ((x :: ([] : Str)).getLastD ' ') = x from rfl]
                      exact hp
                    · rw [ha2] at hne2
                      exact absurd rfl hne2
                | cons q qs =>
                    rw [getLastD_cons_ne x (q :: qs)
                      (List.cons_ne_nil q qs) ' ']
                    rcases hl2 with ⟨hae, -⟩ | ⟨-, hlast2⟩
                    · rw [ha2] at hae
                      exact absurd hae (List.cons_ne_nil q qs)
                    · rw [ha2] at hlast2
                      exact hlast2

/-- Edge facts about the hardcoded table: keys and values are nonempty,
keys start and end with a word character, values end with a word
character, and keys are already lowercase. -/
theorem tableEdgeFacts : ∀ p ∈ commonFixes,
    p.1 ≠ [] ∧ isWordC (p.1.headD ' ') = true ∧
    isWordC (p.1.getLastD ' ') = true ∧ p.2 ≠ [] ∧
    isWordC (p.2.getLastD ' ') = true ∧ lowerStr p.1 = p.1 := by
  decide

/-- Pairwise facts about the hardcoded table: no key occurs
case-insensitively inside any correct value (`F3`); whenever a nonempty
proper prefix of a key matches a suffix of a correct value, the value
continues to the left with a word character, so no word boundary lets an
occurrence complete out of the value (`F4`); and no key continues after
one of its internal non-word characters with the first letter of any
correct value (`F7`). -/
theorem tablePairFacts : ∀ p ∈ commonFixes, ∀ q ∈ commonFixes,
    isSubstr (lowerStr p.1) (lowerStr q.2) = false ∧
    (∀ k, k < q.2.length + 1 → 1 ≤ k → k < p.1.length →
      lowerStr (q.2.drop (q.2.length - k)) = lowerStr (p.1.take k) →
      (k < q.2.length ∧ isWordC (q.2.getD (q.2.length - k - 1) ' ') = true)) ∧
    (∀ j, j < p.1.length → 1 ≤ j →
      isWordC (p.1.getD (j - 1) ' ') = false →
      Char.toLower (p.1.getD j ' ') ≠ Char.toLower (q.2.headD ' ')) := by
  intro p hp q hq
  fin_cases hp <;> fin_cases hq <;> exact ⟨by decide, by decide, by decide⟩

/-- One pass of the fold of `apply_terminology_fixes` for a table pair `q`
never creates a word-boundary occurrence of a table key `p.1`, and
destroys every occurrence of its own key. -/
theorem step_occ_transfer (p q : Str × Str) (hp : p ∈ commonFixes)
    (hq : q ∈ commonFixes) (v : Str)
    (h : OccAt p.1 false (subWB q.1 q.2 v)) :
    p.1 ≠ q.1 ∧ OccAt p.1 false v := by
  obtain ⟨hq1, hq2, hq3, hq4, hq5, -⟩ := tableEdgeFacts q hq
  obtain ⟨hp1, hp2, hp3, -, -, -⟩ := tableEdgeFacts p hp
  obtain ⟨hF3, hF4, hF7⟩ := tablePairFacts p hp q hq
  exact subWB_occ_transfer q.1 q.2 p.1 hq1 hq2 hq3 hq4 hq5 hp1 hp2 hp3
    hF3 hF4 hF7 v.length v (le_refl _) false h

/-- Walking the gated fold of `apply_terminology_fixes` backwards: a
word-boundary occurrence of a table key `p.1` in the fold's output comes
from one in the fold's input, and every fix for that very key that the
fold contains must have been gated off. -/
theorem fold_occ_transfer (tl0 : Str) :
    ∀ (fixes : List (Str × Str)), (∀ q ∈ fixes, q ∈ commonFixes) →
    ∀ (v : Str) (p : Str × Str), p ∈ commonFixes →
    OccAt p.1 false (fixes.foldl
      (fun t wc => if isSubstr wc.1 tl0 then subWB wc.1 wc.2 t else t) v) →
    OccAt p.1 false v ∧
      (∀ q ∈ fixes, q.1 = p.1 → isSubstr q.1 tl0 = false) := by
  intro fixes
  induction fixes with
  | nil =>
      intro _ v p _ h
      exact ⟨h, fun q hq => absurd hq (List.not_mem_nil q)⟩
  | cons q rest ih =>
      intro hsub v p hp h
      simp only [List.foldl_cons] at h
      obtain ⟨hstep, hrest⟩ := ih
        (fun r hr => hsub r (List.mem_cons_of_mem q hr))
        (if isSubstr q.1 tl0 then subWB q.1 q.2 v else v) p hp h
      by_cases hg : isSubstr q.1 tl0 = true
      · rw [if_pos hg] at hstep
        obtain ⟨hne, hv⟩ := step_occ_transfer p q hp
          (hsub q (List.mem_cons_self q rest)) v hstep
        refine ⟨hv, ?_⟩
        intro r hr hre
        rcases List.mem_cons.mp hr with hrq | hrr
        · exact absurd (hrq ▸ hre).symm hne
        · exact hrest r hrr hre
      · have hgf : isSubstr q.1 tl0 = false := by
          cases hgg : isSubstr q.1 tl0
          · rfl
          · exact absurd hgg hg
        rw [if_neg hg] at hstep
        refine ⟨hstep, ?_⟩
        intro r hr hre
        rcases List.mem_cons.mp hr with hrq | hrr
        · rw [hrq]
          exact hgf
        · exact hrest r hrr hre

/-- The output of `apply_terminology_fixes` contains no table key as a
whole word (case-insensitively): every fix that could fire on the original
text has fired — replacements never recreate a key and the stale substring
gate cannot block a fix whose key survives to the output. -/
theorem apply_terminology_fixes_noWB (tm : Terms) (t : Str)
    (sl tl : String) :
    ∀ p ∈ commonFixes,
      hasWB p.1 (apply_terminology_fixes tm t sl tl) = false := by
  intro p hp
  cases hcon : hasWB p.1 (apply_terminology_fixes tm t sl tl) with
  | false => rfl
  | true =>
      exfalso
      obtain ⟨hp1, hp2, hp3, -, -, hplow⟩ := tableEdgeFacts p hp
      have hocc : OccAt p.1 false (apply_terminology_fixes tm t sl tl) :=
        hasWBGo_occ p.1 hp2 hp3 _ false hcon
      have hfold : apply_terminology_fixes tm t sl tl =
          commonFixes.foldl (fun v wc =>
            if isSubstr wc.1 (lowerStr t) then subWB wc.1 wc.2 v else v)
            t := rfl
      rw [hfold] at hocc
      obtain ⟨hocc_t, hgate⟩ := fold_occ_transfer (lowerStr t) commonFixes
        (fun q hq => hq) t p hp hocc
      have hsubt : isSubstr p.1 (lowerStr t) = true := by
        rw [isSubstr_correct]
        obtain ⟨a, m, b, hv, hlm, -, -⟩ := hocc_t
        exact ⟨lowerStr a, lowerStr b, by
          rw [← hplow, ← hlm, hv, lowerStr_append, lowerStr_append]⟩
      rw [hgate p hp rfl] at hsubt
      exact Bool.noConfusion hsubt

/-- C9 (amended): `fix_common_mistakes` is idempotent exactly on inputs
whose fixed output triggers no further rule — idempotent whenever its
output contains no known wrong variant as a case-insensitive substring,
which can fail for dictionaries whose correct term contains one of its own
wrong variants (see the counterexample); `apply_terminology_fixes`, whose
hardcoded table never recreates a wrong term, is unconditionally
idempotent: for every terminology dictionary, language pair and text, a
second application returns the first application's output unchanged. -/
theorem c9_amended :
    (∀ (cm : CMap) (lang : String) (t : Str),
       check_common_mistakes cm (fix_common_mistakes cm t lang) lang = [] →
       fix_common_mistakes cm (fix_common_mistakes cm t lang) lang =
         fix_common_mistakes cm t lang) ∧
    (∀ (tm : Terms) (sl tl : String) (t : Str),
       apply_terminology_fixes tm (apply_terminology_fixes tm t sl tl) sl tl
         = apply_terminology_fixes tm t sl tl) := by
  constructor
  · intro cm lang t h
    conv_lhs => rw [fix_common_mistakes]
    rw [h]
    rfl
  · intro tm sl tl t
    exact apply_terminology_fixes_id tm _ sl tl
      (apply_terminology_fixes_noWB tm t sl tl)

theorem c9_amended_witness :
    fix_common_mistakes cmC2
      (fix_common_mistakes cmC2 (("badx").data) ("english")) ("english") =
      fix_common_mistakes cmC2 (("badx").data) ("english") ∧
    apply_terminology_fixes tmEmpty
      (apply_terminology_fixes tmEmpty (("exit").data) ("turkish")
        ("english")) ("turkish") ("english") =
      apply_terminology_fixes tmEmpty (("exit").data) ("turkish")
        ("english") :=
  ⟨c9_amended.1 cmC2 ("english") (("badx").data) (by decide),
   c9_amended.2 tmEmpty ("turkish") ("english") (("exit").data)⟩

/-- C2 counterexample: a translated text containing the same wrong variant
twice is penalised once, not `20 * k`.  With only the variant `badx`
configured, `badx badx` (two occurrences) scores 80 = 100 - 20, not
100 - 40 = 60 as the claim predicts. -/
theorem c2_counterexample :
    (calculate_quality_score cmC2 (("abc").data) (("badx badx").data)
      ("english")).score = 80 ∧
    countOccur (lowerStr (("badx").data))
      (lowerStr (("badx badx").data)) = 2 ∧
    (80 : Int) ≠ 100 - 20 * 2 := by
  decide

/-- C2 (amended): the scorer subtracts 20 and appends a `common_mistake`
issue with confidence 0.9 once per `(correct_term, wrong_variant)`
dictionary pair whose variant occurs as a case-insensitive substring of the
translated text — at most once per pair, regardless of how many times the
variant occurs.  The issues are exactly those pairs' issues, the penalty
count is the per-pair sum of matching variants, and the final score is
`max 0` of the accumulated score in which each detected issue contributes
-20. -/
theorem c2_amended (cm : CMap) (lang : String) (original t : Str) :
    (∀ i : Issue,
       i ∈ check_common_mistakes cm t lang ↔
       ∃ p ∈ cm lang, ∃ w ∈ p.2,
         isSubstr (lowerStr w) (lowerStr t) = true ∧
         i = mkMistakeIssue w p.1) ∧
    ((check_common_mistakes cm t lang).length =
      ((cm lang).map (fun p =>
        (p.2.filter (fun w => isSubstr (lowerStr w) (lowerStr t))).length)).sum) ∧
    (∀ i ∈ check_common_mistakes cm t lang,
       i.type = ("common_mistake") ∧ i.confidence = 9/10) ∧
    (calculate_quality_score cm original t lang).score =
      max 0 (qsRaw cm original t lang) ∧
    (calculate_quality_score cm original t lang).issues =
      check_common_mistakes cm t lang
        ++ (if trimWs t = [] then [emptyIssue] else [])
        ++ (if 5 * t.length < original.length then [tooShortIssue] else [])
        ++ (if eqAsSets (findall_tags original) (findall_tags t) then []
            else [htmlIssue]) := by
  refine ⟨?_, check_length_formula cm lang t, ?_, ?_, ?_⟩
  · intro i
    simp only [check_common_mistakes, List.mem_flatMap, List.mem_map,
      List.mem_filter]
    constructor
    · rintro ⟨p, hp, w, ⟨hw, hsub⟩, hi⟩
      exact ⟨p, hp, w, hw, hsub, hi.symm⟩
    · rintro ⟨p, hp, w, hw, hsub, hi⟩
      exact ⟨p, hp, w, ⟨hw, hsub⟩, hi.symm⟩
  · intro i hi
    simp only [check_common_mistakes, List.mem_flatMap, List.mem_map,
      List.mem_filter] at hi
    obtain ⟨p, _, w, _, hi⟩ := hi
    rw [← hi]
    exact ⟨rfl, rfl⟩
  · rw [calculate_quality_score_eq]
  · rw [calculate_quality_score_eq]
    rfl

def dC5 : Terms :=
  ⟨fun w => if w = ("cikis").data then some (("logout").data) else none,
   fun _ => none⟩

/-- C5 counterexample: token-level substitution does *not* apply to
single-token texts.  With the dictionary mapping `cikis` to `logout`, the
one-word input `cikis!` has no whole-string match, its cleaned token `cikis`
has a dictionary translation, yet the function returns the input unchanged
with `usedTerminology = false` (the word-level pass runs only when the split
yields more than one token), while the claim predicts the substitution. -/
theorem c5_counterexample :
    translate_with_terminology dC5 (("cikis!").data) ("turkish") ("english")
      = ((("cikis!").data), false) ∧
    truthyO (get_term_translation dC5 (("cikis!").data) ("turkish")
      ("english")) = none ∧
    cleanLower (("cikis!").data) = ("cikis").data ∧
    dC5.tr_en (("cikis").data) = some (("logout").data) ∧
    (splitWs (("cikis!").data)).length = 1 := by
  decide

/-- C5 (amended): for texts with no whole-string match, the token-level
substitution (strip punctuation, lowercase, exact lookup, substitute on
hit, keep original token otherwise; space-joined result and
`usedTerminology = true` when at least one token was substituted, original
text with `false` otherwise) applies only when the whitespace split yields
more than one token; a single-token text (for example a one-word string
with trailing punctuation) is returned unchanged with
`usedTerminology = false`. -/
theorem c5_amended (terms : Terms) (sl tl : String) (text : Str)
    (h : truthyO (get_term_translation terms text sl tl) = none) :
    ((splitWs text).length ≤ 1 →
       translate_with_terminology terms text sl tl = (text, false)) ∧
    (1 < (splitWs text).length →
       translate_with_terminology terms text sl tl =
         (if (splitWs text).any (fun w =>
              (truthyO (get_term_translation terms (cleanLower w) sl
                tl)).isSome)
          then
            (joinSpace ((splitWs text).map (fun w =>
              (truthyO (get_term_translation terms (cleanLower w) sl
                tl)).getD w)), true)
          else (text, false))) := by
  unfold translate_with_terminology
  rw [h]
  constructor
  · intro hlen
    rw [if_neg (by omega)]
  · intro hlen
    rw [if_pos hlen]
    dsimp only
    rw [terminology_foldl_closed]
    simp only [List.nil_append, Bool.false_or]

theorem c5_amended_witness :
    translate_with_terminology dC5 (("Lutfen cikis yapin").data) ("turkish")
      ("english") = ((("Lutfen logout yapin").data), true) := by
  have h := (c5_amended dC5 ("turkish") ("english")
    (("Lutfen cikis yapin").data) (by decide)).2 (by decide)
  rw [h]
  decide

def dC10 : Terms :=
  ⟨fun w => if w = ("foo").data then some [] else none, fun _ => none⟩

/-- C10: a dictionary entry whose value is the empty string behaves as an
absent entry — removing it from the map does not change
`translate_with_terminology` at all; and when the whole-string lookup and
every token lookup are truthy-empty (absent or empty-valued), the original
text is returned with `usedTerminology = false`. -/
theorem c10_empty_value_treated_absent :
    (∀ (d : Terms) (s text : Str) (sl tl : String),
       d.tr_en s = some [] →
       translate_with_terminology
         { d with tr_en := fun w => if w = s then none else d.tr_en w }
         text sl tl =
       translate_with_terminology d text sl tl) ∧
    (∀ (d : Terms) (s text : Str) (sl tl : String),
       d.en_de s = some [] →
       translate_with_terminology
         { d with en_de := fun w => if w = s then none else d.en_de w }
         text sl tl =
       translate_with_terminology d text sl tl) ∧
    (∀ (d : Terms) (text : Str) (sl tl : String),
       truthyO (get_term_translation d text sl tl) = none →
       (∀ w ∈ splitWs text,
          truthyO (get_term_translation d (cleanLower w) sl tl) = none) →
       translate_with_terminology d text sl tl = (text, false)) := by
  refine ⟨?_, ?_, ?_⟩
  · intro d s text sl tl hs
    have hkey : ∀ t' : Str,
        truthyO (get_term_translation
          { d with tr_en := fun w => if w = s then none else d.tr_en w }
          t' sl tl) =
        truthyO (get_term_translation d t' sl tl) := by
      intro t'
      unfold get_term_translation truthyO
      split_ifs with h1 h2
      · dsimp only
        by_cases hq : lowerStr t' = s
        · rw [if_pos hq, hq, hs]
          simp
        · rw [if_neg hq]
      · rfl
      · rfl
    unfold translate_with_terminology
    simp only [hkey]
  · intro d s text sl tl hs
    have hkey : ∀ t' : Str,
        truthyO (get_term_translation
          { d with en_de := fun w => if w = s then none else d.en_de w }
          t' sl tl) =
        truthyO (get_term_translation d t' sl tl) := by
      intro t'
      unfold get_term_translation truthyO
      split_ifs with h1 h2
      · rfl
      · dsimp only
        by_cases hq : lowerStr t' = s
        · rw [if_pos hq, hq, hs]
          simp
        · rw [if_neg hq]
      · rfl
    unfold translate_with_terminology
    simp only [hkey]
  · intro d text sl tl h hall
    unfold translate_with_terminology
    rw [h]
    dsimp only
    by_cases hlen : 1 < (splitWs text).length
    · rw [if_pos hlen]
      rw [terminology_foldl_closed]
      have hany : (splitWs text).any (fun word =>
          (truthyO (get_term_translation d (cleanLower word) sl
            tl)).isSome) = false := by
        rw [List.any_eq_false]
        intro w hw
        rw [hall w hw]
        simp
      simp only [List.nil_append, Bool.false_or, hany]
      rfl
    · rw [if_neg hlen]

theorem c10_empty_value_treated_absent_witness :
    translate_with_terminology dC10 (("foo").data) ("turkish") ("english") =
      ((("foo").data), false) :=
  c10_empty_value_treated_absent.2.2 dC10 (("foo").data) ("turkish")
    ("english") (by decide) (by decide)

/-! ### Positional characterization of `normalize_capitalization` -/

/-- The positions the capitalization regex uppercases (when they hold a
lowercase ASCII letter): position 0 (the `^` branch), and any position
preceded by a `.`, `!` or `?` followed by a nonempty run of whitespace. -/
def capPos (s : Str) (p : Nat) : Prop :=
  p = 0 ∨ ∃ q < p, q + 2 ≤ p ∧ isSentC (s.getD q ' ') = true ∧
    ∀ i < p, q < i → isWsC (s.getD i ' ') = true

instance (s : Str) (p : Nat) : Decidable (capPos s p) := by
  unfold capPos
  infer_instance

/-- The scanner state after consuming the first `p` characters. -/
def capStateAt (s : Str) (p : Nat) : CapState :=
  (s.take p).foldl capStep CapState.start

theorem capGo_length (l : Str) : ∀ st : CapState,
    (capGo st l).length = l.length := by
  induction l with
  | nil => intro st; rfl
  | cons c rest ih => intro st; simp [capGo, ih]

theorem capEmit_space (st : CapState) : capEmit st ' ' = ' ' := by
  unfold capEmit
  split_ifs with h
  · exact absurd h.2 (by decide)
  · rfl

theorem capGo_getD (l : Str) : ∀ (st : CapState) (p : Nat),
    (capGo st l).getD p ' ' =
      capEmit ((l.take p).foldl capStep st) (l.getD p ' ') := by
  induction l with
  | nil =>
      intro st p
      simp [capGo, List.getD, capEmit_space]
  | cons c rest ih =>
      intro st p
      cases p with
      | zero => simp [capGo]
      | succ p' =>
          simp only [capGo, List.getD_cons_succ, List.take_succ_cons,
            List.foldl_cons]
          exact ih (capStep st c) p'

theorem capStateAt_succ (s : Str) (p : Nat) (hp : p < s.length) :
    capStateAt s (p + 1) = capStep (capStateAt s p) (s.getD p ' ') := by
  unfold capStateAt
  rw [List.take_succ, List.foldl_append]
  rw [show s[p]? = some (s.getD p ' ') by
    simp [List.getElem?_eq_getElem hp, List.getD]]
  rfl

theorem capStep_ne_start (st : CapState) (c : Char) :
    capStep st c ≠ CapState.start := by
  unfold capStep
  split_ifs <;> simp

theorem sent_not_ws {c : Char} (h : isSentC c = true) : isWsC c = false := by
  unfold isSentC at h
  simp only [Bool.or_eq_true, decide_eq_true_eq] at h
  rcases h with (h | h) | h <;> subst h <;> decide

theorem capStep_eq_punct (st : CapState) (c : Char) :
    capStep st c = CapState.punct ↔ isSentC c = true := by
  unfold capStep
  by_cases h1 : isSentC c = true
  · simp [h1]
  · rw [if_neg h1]
    by_cases h2 : isWsC c = true
    · rw [if_pos h2]
      split_ifs <;> simp [h1]
    · rw [if_neg h2]
      simp [h1]

theorem capStep_eq_ws (st : CapState) (c : Char) :
    capStep st c = CapState.ws ↔
      (isWsC c = true ∧ (st = CapState.punct ∨ st = CapState.ws)) := by
  unfold capStep
  by_cases h1 : isSentC c = true
  · rw [if_pos h1]
    simp [sent_not_ws h1]
  · rw [if_neg h1]
    by_cases h2 : isWsC c = true
    · rw [if_pos h2]
      by_cases h3 : st = CapState.punct ∨ st = CapState.ws
      · rw [if_pos h3]
        simp [h2, h3]
      · rw [if_neg h3]
        simp [h2, h3]
    · rw [if_neg h2]
      simp [h2]

/-- Characterization of the scanner state at each position `p ≤ |s|`:
`start` only at 0, `punct` exactly after a sentence-ending character, `ws`
exactly after a sentence-ending character followed by a nonempty whitespace
run. -/
theorem capStateAt_char (s : Str) : ∀ p : Nat, p ≤ s.length →
    (capStateAt s p = CapState.start ↔ p = 0) ∧
    (capStateAt s p = CapState.punct ↔
      (0 < p ∧ isSentC (s.getD (p - 1) ' ') = true)) ∧
    (capStateAt s p = CapState.ws ↔
      (∃ q < p, q + 2 ≤ p ∧ isSentC (s.getD q ' ') = true ∧
        ∀ i < p, q < i → isWsC (s.getD i ' ') = true)) := by
  intro p
  induction p with
  | zero =>
      intro _
      refine ⟨by simp [capStateAt], ?_, ?_⟩
      · simp [capStateAt]
      · simp [capStateAt]
  | succ p ih =>
      intro hp1
      have hp : p < s.length := by omega
      have ihh := ih (by omega)
      rw [capStateAt_succ s p hp]
      refine ⟨?_, ?_, ?_⟩
      · simp [capStep_ne_start]
      · rw [capStep_eq_punct]
        simp
      · rw [capStep_eq_ws]
        constructor
        · rintro ⟨hwc, hst | hst⟩
          · -- previous state punct: the sentence end is at p - 1
            obtain ⟨hp0, hsent⟩ := (ihh.2.1).mp hst
            refine ⟨p - 1, by omega, by omega, hsent, ?_⟩
            intro i hi1 hi2
            have : i = p := by omega
            subst this
            exact hwc
          · -- previous state ws: extend the whitespace run by one
            obtain ⟨q, hq1, hq2, hsent, hws⟩ := (ihh.2.2).mp hst
            refine ⟨q, by omega, by omega, hsent, ?_⟩
            intro i hi1 hi2
            by_cases hip : i = p
            · subst hip; exact hwc
            · exact hws i (by omega) hi2
        · rintro ⟨q, hq1, hq2, hsent, hws⟩
          have hwc : isWsC (s.getD p ' ') = true := hws p (by omega) (by omega)
          refine ⟨hwc, ?_⟩
          by_cases hqp : q + 2 = p + 1
          · left
            rw [(ihh.2.1)]
            refine ⟨by omega, ?_⟩
            have : p - 1 = q := by omega
            rw [this]
            exact hsent
          · right
            rw [(ihh.2.2)]
            exact ⟨q, by omega, by omega, hsent,
              fun i hi1 hi2 => hws i (by omega) hi2⟩

def capExample : Str := ("hello world. how are you?").data

/-- C6: `normalize_capitalization` preserves the length of the string and
maps the character at every position `p` to itself, except that a lowercase
ASCII letter at position 0, or at a position preceded by `.`, `!` or `?`
followed by (one or more) whitespace characters, is uppercased; in
particular `"hello world. how are you?"` becomes
`"Hello world. How are you?"`. -/
theorem c6_normalize_capitalization :
    (∀ s : Str, (normalize_capitalization s).length = s.length) ∧
    (∀ (s : Str) (p : Nat),
       (normalize_capitalization s).getD p ' ' =
         if isLowerAZ (s.getD p ' ') = true ∧ capPos s p
         then (s.getD p ' ').toUpper
         else s.getD p ' ') ∧
    normalize_capitalization capExample =
      ("Hello world. How are you?").data := by
  refine ⟨fun s => capGo_length s CapState.start, ?_, by decide⟩
  intro s p
  rw [normalize_capitalization, capGo_getD]
  by_cases hp : p < s.length
  · have hchar := capStateAt_char s p (le_of_lt hp)
    rw [capEmit]
    have hcond : ((capStateAt s p = CapState.start ∨
        capStateAt s p = CapState.ws) ∧
          isLowerAZ (s.getD p ' ') = true) ↔
        (isLowerAZ (s.getD p ' ') = true ∧ capPos s p) := by
      unfold capPos
      constructor
      · rintro ⟨hst, hlow⟩
        refine ⟨hlow, ?_⟩
        rcases hst with hst | hst
        · exact Or.inl (hchar.1.mp hst)
        · exact Or.inr (hchar.2.2.mp hst)
      · rintro ⟨hlow, hpos | hpos⟩
        · exact ⟨Or.inl (hchar.1.mpr hpos), hlow⟩
        · exact ⟨Or.inr (hchar.2.2.mpr hpos), hlow⟩
    exact if_congr hcond rfl rfl
  · have hd : s.getD p ' ' = ' ' :=
      List.getD_eq_default s ' ' (by omega)
    rw [hd, capEmit_space]
    rw [if_neg (fun hc => absurd hc.1 (by decide))]

theorem foldl_append_eq_flatMap (f : Str → Str) (l : List Str) :
    ∀ acc : Str,
      l.foldl (fun a p => a ++ f p) acc = acc ++ l.flatMap f := by
  induction l with
  | nil => intro acc; simp
  | cons x xs ih =>
      intro acc
      simp only [List.foldl_cons, List.flatMap_cons, ih, List.append_assoc]

def htmlExample : Str := ("<b>Merhaba</b> dünya").data

/-- C7: for text containing markup, `translate_text_with_html` concatenates
in original order the processed versions of the nonempty spans produced by
the tag split; tag spans (`<...>`) pass through unmodified and
whitespace-only spans are re-emitted unchanged; trimmed nonempty spans are
translated with a single leading/trailing space re-attached when the
original span had one.  In particular on `"<b>Merhaba</b> dünya"`, for
every translation function the output is exactly `"<b>"`, the translation
of `"Merhaba"`, `"</b>"`, a space, and the translation of `"dünya"`, in
that order — so the exact substrings `"<b>"` and `"</b>"` appear in their
original relative order. -/
theorem c7_translate_text_with_html :
    (∀ (tf : Str → Str) (text : Str),
       text.contains '<' = true →
       translate_text_with_html tf text =
         ((splitTags text).filter (fun p => !p.isEmpty)).flatMap
           (processPart tf)) ∧
    (∀ (tf : Str → Str) (part : Str),
       (startsWithC '<' part && endsWithC '>' part) = true →
       processPart tf part = part) ∧
    (∀ (tf : Str → Str) (part : Str),
       trimWs part = [] → processPart tf part = part) ∧
    (∀ tf : Str → Str,
       translate_text_with_html tf htmlExample =
         ("<b>").data ++ trimWs (tf (("Merhaba").data)) ++ ("</b>").data ++
           ' ' :: trimWs (tf (("dünya").data))) := by
  have htag : ∀ (tf : Str → Str) (part : Str),
      (startsWithC '<' part && endsWithC '>' part) = true →
      processPart tf part = part := by
    intro tf part h
    unfold processPart
    rw [if_pos h]
  have hws : ∀ (tf : Str → Str) (part : Str),
      trimWs part = [] → processPart tf part = part := by
    intro tf part h
    unfold processPart
    by_cases h1 : (startsWithC '<' part && endsWithC '>' part) = true
    · rw [if_pos h1]
    · rw [if_neg h1]
      simp only [h]
      rfl
  have hsplit : ∀ (tf : Str → Str) (text : Str),
      text.contains '<' = true →
      translate_text_with_html tf text =
        ((splitTags text).filter (fun p => !p.isEmpty)).flatMap
          (processPart tf) := by
    intro tf text h
    unfold translate_text_with_html
    rw [if_neg (fun hc => hc h)]
    rw [foldl_append_eq_flatMap]
    rfl
  refine ⟨hsplit, htag, hws, ?_⟩
  intro tf
  rw [hsplit tf htmlExample (by decide)]
  rw [show (splitTags htmlExample).filter (fun p => !p.isEmpty) =
    [("<b>").data, ("Merhaba").data, ("</b>").data, (" dünya").data]
    from by decide]
  simp only [List.flatMap_cons, List.flatMap_nil, List.append_nil]
  rw [show processPart tf (("<b>").data) = ("<b>").data from rfl,
    show processPart tf (("Merhaba").data) =
      trimWs (tf (("Merhaba").data)) from rfl,
    show processPart tf (("</b>").data) = ("</b>").data from rfl,
    show processPart tf ((" dünya").data) =
      ' ' :: trimWs (tf (("dünya").data)) from rfl]
  simp [List.append_assoc]

theorem c7_translate_text_with_html_witness :
    processPart (fun s => s) (("<b>").data) = ("<b>").data ∧
    processPart (fun s => s) (("  ").data) = ("  ").data ∧
    translate_text_with_html (fun s => s) (("a<b>c").data) =
      ((splitTags (("a<b>c").data)).filter (fun p => !p.isEmpty)).flatMap
        (processPart (fun s => s)) :=
  ⟨c7_translate_text_with_html.2.1 (fun s => s) (("<b>").data) (by decide),
   c7_translate_text_with_html.2.2.1 (fun s => s) (("  ").data) (by decide),
   c7_translate_text_with_html.1 (fun s => s) (("a<b>c").data) (by decide)⟩

theorem c2_amended_witness :
    (mkMistakeIssue (("badx").data) (("good").data)).type =
      ("common_mistake") ∧
    (mkMistakeIssue (("badx").data) (("good").data)).confidence = 9/10 :=
  (c2_amended cmC2 ("english") (("abc").data)
    (("badx badx").data)).2.2.1 (mkMistakeIssue (("badx").data)
      (("good").data))
    (by
      rw [show check_common_mistakes cmC2 (("badx badx").data) ("english") =
        [mkMistakeIssue (("badx").data) (("good").data)] from rfl]
      exact List.mem_singleton.mpr rfl)

